import Mathlib

/-!
Verification of the MPIpe pipeline scripts.

This file gives a shallow embedding of the filename-driven classification
and naming logic of the two scripts of the repository:

* copy2bids.py : stem normalization, the sequence / modality / run token
  extractors (regular expressions embedded as executable matchers), and the
  per-section copy loop with its run-counter table.
* generate_bids_config.py : the source scanner, the ordered rule
  classification in categorise (skip, SBRef, anatomical, functional,
  field map), the task-label derivation, and the task renaming pass.

Pure Python functions become Lean functions on String / List Char; the
mutable dictionaries (run counters, the mapping under construction) become
explicit state threaded through folds; Python exceptions (IndexError,
StopIteration) become Option, with none marking the crash.
-/

namespace MPIpe

/-- ASCII lowercasing, mirroring Python str.lower on the ASCII names the
scripts handle. -/
def lc (c : Char) : Char :=
  if 'A' ≤ c ∧ c ≤ 'Z' then Char.ofNat (c.toNat + 32) else c

/-- Lowercase a character list. -/
def lcs (l : List Char) : List Char := l.map lc

/-- Lowercase a string, as Python str.lower. -/
def lowerStr (s : String) : String := String.mk (lcs s.data)

/-- ASCII decimal digit test (Python str.isdigit / regex \d on ASCII). -/
def isDigitC (c : Char) : Bool := decide ('0' ≤ c ∧ c ≤ '9')

/-- Value of a decimal digit character. -/
def dval (c : Char) : Nat := c.toNat - '0'.toNat

/-- Alphanumeric test for the character class a-z0-9 under IGNORECASE. -/
def isAlnumC (c : Char) : Bool := isDigitC c || decide ('a' ≤ lc c ∧ lc c ≤ 'z')

/-- Word-character test (regex \b boundary class: letters, digits, underscore). -/
def isWordC (c : Char) : Bool := isAlnumC c || decide (c = '_')

/-- The separator class [_-] used by the run-token patterns. -/
def isSepC (c : Char) : Bool := decide (c = '_' ∨ c = '-')

/-- Python whitespace, for str.strip and the regex class \s. -/
def isPySpace (c : Char) : Bool :=
  decide (c = ' ' ∨ c = '\t' ∨ c = '\n' ∨ c = '\r' ∨ c = '\x0b' ∨ c = '\x0c')

/-- Case-insensitive prefix test: does the first list start with the second? -/
def startsWithCI : List Char → List Char → Bool
  | _, [] => true
  | [], _ :: _ => false
  | c :: cs, p :: ps => decide (lc c = lc p) && startsWithCI cs ps

/-- Case-insensitive substring search, the truth value of
re.search(pat, s, re.I) for a plain-text pattern. -/
def containsCI : List Char → List Char → Bool
  | [], pat => startsWithCI [] pat
  | c :: t, pat => startsWithCI (c :: t) pat || containsCI t pat

/-- String-level case-insensitive substring search. -/
def containsCIs (s pat : String) : Bool := containsCI s.data pat.data

/-- Case-sensitive suffix test on strings. -/
def endsWithS (s suf : String) : Bool := s.data.reverse.take suf.data.length = suf.data.reverse

/-- Case-insensitive suffix test on character lists. -/
def endsWithCI (l suf : List Char) : Bool :=
  lcs (l.reverse.take suf.length) = lcs suf.reverse

/-- Consume a case-insensitive literal from the front: dropCI pat s is the
remainder of s after pat, when s starts with pat. -/
def dropCI : List Char → List Char → Option (List Char)
  | [], s => some s
  | _ :: _, [] => none
  | p :: ps, c :: cs => if lc c = lc p then dropCI ps cs else none

/-! ## copy2bids.py : stem normalization -/

/-- EXT_STRIP: strip a single trailing .nii, .nii.gz or .json extension
(case-insensitive), as the substitution with the anchored pattern. -/
def stripExt (l : List Char) : List Char :=
  if endsWithCI l ".nii.gz".data then l.take (l.length - 7)
  else if endsWithCI l ".nii".data then l.take (l.length - 4)
  else if endsWithCI l ".json".data then l.take (l.length - 5)
  else l

/-- Python str.strip: remove leading and trailing whitespace. -/
def pyStrip (l : List Char) : List Char :=
  ((l.dropWhile isPySpace).reverse.dropWhile isPySpace).reverse

/-- Characters consumed around the digits by LEADING_INDEX. -/
def isSepSpace (c : Char) : Bool := isPySpace c || isSepC c

/-- LEADING_INDEX: drop a leading run of separators and whitespace, a
nonempty run of digits and the separators after it; if no digits are found
there the string is unchanged (the pattern fails to match). -/
def stripLeadingIndex (l : List Char) : List Char :=
  let t := l.dropWhile isSepSpace
  match t with
  | [] => l
  | c :: _ => if isDigitC c then (t.dropWhile isDigitC).dropWhile isSepSpace else l

/-- normalize_stem from copy2bids.py: strip extension, trim whitespace,
strip a leading numeric index, lowercase. -/
def normalize_stem (stem : String) : String :=
  String.mk (lcs (stripLeadingIndex (pyStrip (stripExt stem.data))))

/-! ## copy2bids.py : sequence and modality extractors

Each SEQ_PATTERNS / MOD_PATTERNS entry is a case-insensitive token pattern
guarded by a negative lookbehind and lookahead on [a-z0-9].  scanHits walks
every start position carrying whether the previous character allows a match
(start of string, or a non-alphanumeric character). -/

/-- Generic left-to-right scan: hit tests a match at the current position,
bOk says the lookbehind at that position is satisfied. -/
def scanHits (hit : List Char → Bool) : Bool → List Char → Bool
  | bOk, [] => bOk && hit []
  | bOk, c :: t => (bOk && hit (c :: t)) || scanHits hit (!(isAlnumC c)) t

/-- Lookahead (?![a-z0-9]) at the remainder. -/
def boundaryAfter : List Char → Bool
  | [] => true
  | c :: _ => !(isAlnumC c)

/-- A plain token with trailing boundary at the current position. -/
def hitTok (pat : List Char) (s : List Char) : Bool :=
  match dropCI pat s with
  | some rest => boundaryAfter rest
  | none => false

/-- search for a lookaround-guarded token anywhere in the string. -/
def searchTok (pat : String) (s : List Char) : Bool :=
  scanHits (hitTok pat.data) true s

/-- The (3d)?bssfp pattern: an optional 3d directly before bssfp, under the
same lookarounds. -/
def hitBssfp (s : List Char) : Bool :=
  hitTok "3dbssfp".data s || hitTok "bssfp".data s

/-- The ep2d...bold...TR patterns: literal segments separated by runs of
non-alphanumeric characters, with the outer lookarounds. -/
def hitEp2d (tr : String) (s : List Char) : Bool :=
  match dropCI "ep2d".data s with
  | none => false
  | some r1 =>
    match dropCI "bold".data (r1.dropWhile (fun c => !(isAlnumC c))) with
    | none => false
    | some r2 =>
      match dropCI tr.data (r2.dropWhile (fun c => !(isAlnumC c))) with
      | some r3 => boundaryAfter r3
      | none => false

/-- The labels of the SEQ_PATTERNS entries matching the name, in the fixed
priority order of the table. -/
def seqMatches (s : List Char) : List String :=
  (if searchTok "vaso" s then ["vaso"] else []) ++
  (if scanHits hitBssfp true s then ["bssfp"] else []) ++
  (if scanHits (hitEp2d "2000") true s then ["ep2d_bold_2000"] else []) ++
  (if scanHits (hitEp2d "800") true s then ["ep2d_bold_800"] else []) ++
  (if searchTok "mprage" s then ["mprage"] else [])

/-- parse_sequence from copy2bids.py: first matching pattern label, the
sentinel unknownseq when none match (the multiple-match warning is a print
only and does not change the result). -/
def parse_sequence (n : String) : String :=
  (seqMatches n.data).headD "unknownseq"

/-- parse_modality from copy2bids.py: first of task, rs, test to match,
else the sentinel prep. -/
def parse_modality (n : String) : String :=
  if searchTok "task" n.data then "task"
  else if searchTok "rs" n.data then "rs"
  else if searchTok "test" n.data then "test"
  else "prep"

/-! ## copy2bids.py : run extractor

RUN_EXPLICIT_END is the end-anchored pattern, RUN_ANY the pattern with a
trailing word boundary searched anywhere; parse_run uses the end-anchored
match first and otherwise the last RUN_ANY match. -/

/-- After the literal run at the end-anchored position: an optional
separator then one or two digits reaching the end of the string (greedy,
as the regex). -/
def runTailNum : List Char → Option Nat
  | [d] => if isDigitC d then some (dval d) else none
  | [a, b] =>
    if isSepC a && isDigitC b then some (dval b)
    else if isDigitC a && isDigitC b then some (10 * dval a + dval b)
    else none
  | [a, b, c] =>
    if isSepC a && isDigitC b && isDigitC c then some (10 * dval b + dval c)
    else none
  | _ => none

/-- Attempt the end-anchored tail at the current position. -/
def runEndHere (s : List Char) : Option Nat :=
  match dropCI "run".data s with
  | some r => runTailNum r
  | none => none

/-- Search RUN_EXPLICIT_END: at each position the alternation consumes the
start anchor (first position only) or a separator character. -/
def runEndScan : Bool → List Char → Option Nat
  | _, [] => none
  | atStart, c :: t =>
    (if atStart then runEndHere (c :: t) else none) <|>
    (if isSepC c then runEndHere t else none) <|>
    runEndScan false t

/-- Word-boundary test after a digit (the digit is a word character, so the
boundary holds exactly when the next character is absent or not a word
character). -/
def boundaryW : List Char → Bool
  | [] => true
  | c :: _ => !(isWordC c)

/-- One or two digits then a word boundary, greedy. -/
def digPart (s : List Char) : Option Nat :=
  (match s with
   | b :: c :: r =>
     if isDigitC b && isDigitC c && boundaryW r then some (10 * dval b + dval c) else none
   | _ => none) <|>
  (match s with
   | b :: r => if isDigitC b && boundaryW r then some (dval b) else none
   | _ => none)

/-- RUN_ANY tail after the literal run: optional separator, one or two
digits, word boundary. -/
def runAnyTail : List Char → Option Nat
  | [] => none
  | a :: r => if isSepC a then digPart r else digPart (a :: r)

/-- Attempt RUN_ANY at the current position. -/
def runAnyHere (s : List Char) : Option Nat :=
  match dropCI "run".data s with
  | some r => runAnyTail r
  | none => none

/-- The value of the last RUN_ANY occurrence: the rightmost position where
an attempt succeeds (matches cannot overlap, so this is the last finditer
match). -/
def runAnyLast : Bool → List Char → Option Nat
  | _, [] => none
  | atStart, c :: t =>
    runAnyLast false t <|>
    (if isSepC c then runAnyHere t else none) <|>
    (if atStart then runAnyHere (c :: t) else none)

/-- Zero-padding of the run number, the %02d format. -/
def pad2 (n : Nat) : String := if n < 10 then "0" ++ toString n else toString n

/-- The run-NN label built by the scripts. -/
def runLabel (n : Nat) : String := "run-" ++ pad2 n

/-- parse_run from copy2bids.py. -/
def parse_run (n : String) : Option String :=
  match runEndScan true n.data with
  | some v => some (runLabel v)
  | none =>
    match runAnyLast true n.data with
    | some v => some (runLabel v)
    | none => none

/-! ## copy2bids.py : the per-section copy loop

copy_section_list iterates the stems of one mapping section.  The mutable
counters dictionary (custom-mode run counters and the bids-mode indices,
all in one dict with default 0 via setdefault) becomes a total function
from key strings to Nat.  File lookups (find_file) are abstracted by a
predicate found stem ext telling whether a file for that stem and
extension exists under the source root; the emitted destination names are
collected per stem. -/

/-- The mapping sections; copy_section_list asserts membership in this set. -/
inductive Sect
  | anat
  | func
  | fmap
deriving DecidableEq, Repr

/-- The section string used in counter keys and destination paths. -/
def Sect.str : Sect → String
  | .anat => "anat"
  | .func => "func"
  | .fmap => "fmap"

/-- The filenaming strategies of the --filenaming option. -/
inductive Filenaming
  | preserve
  | custom
  | bids
deriving DecidableEq, Repr

/-- The counters dictionary: key string to count, default 0. -/
def Counters := String → Nat

/-- Pointwise dictionary update. -/
def updC (c : Counters) (k : String) (v : Nat) : Counters :=
  fun k' => if k' = k then v else c k'

/-- The custom-mode run-counter key for (section, sequence, modality). -/
def keyFor (sect : Sect) (seq : String) (mod : Option String) : String :=
  sect.str ++ ":" ++ seq ++ ":" ++ mod.getD "none"

/-- bids_suffix_for from copy_section_list: fixed label for anat,
incrementing task-unk run suffix for func, incrementing fmap index
otherwise. -/
def bidsSuffixFor (sect : Sect) (c : Counters) : Counters × String :=
  match sect with
  | .anat => (c, "T1w")
  | .func =>
    let v := c "bids_func_idx" + 1
    (updC c "bids_func_idx" v, "task-unk_" ++ runLabel v ++ "_bold")
  | .fmap =>
    let v := c "bids_fmap_idx" + 1
    (updC c "bids_fmap_idx" v, "fmap" ++ pad2 v)

/-- The modality component: computed only for functional series
(copy_section_list computes parse_modality only when section is func). -/
def modFor (sect : Sect) (n : String) : Option String :=
  match sect with
  | .func => some (parse_modality n)
  | _ => none

/-- The custom-mode counter key a stem falls under. -/
def customKeyOf (sect : Sect) (stem : String) : String :=
  keyFor sect (parse_sequence (normalize_stem stem)) (modFor sect (normalize_stem stem))

/-- What the naming phase decided for one stem. -/
inductive NamingOut
  | preserve
  | custom (seq : String) (mod : Option String) (run : String) (fromCounter : Bool)
      (outStem : String)
  | bids (suffix : String)
deriving DecidableEq, Repr

/-- Per-stem trace record: the naming decision and the destination
filenames emitted for the extensions whose file was found. -/
structure StemRec where
  stem : String
  naming : NamingOut
  copies : List String
deriving DecidableEq, Repr

/-- The two extensions copy_section_list looks for. -/
def exts : List String := [".nii.gz", ".json"]

/-- Destination filenames for the extensions whose file was found, built
from a fixed output stem. -/
def foundCopies (found : String → String → Bool) (stem base : String) : List String :=
  exts.filterMap fun e => if found stem e then some (base ++ e) else none

/-- The custom-mode output stem for a normalized stem and run label:
subject, session, sequence, modality (func only) and run, with the fmap
_revpe tag. -/
def customOutStem (subject session : String) (sect : Sect) (n run : String) : String :=
  match sect with
  | .func => subject ++ "_" ++ session ++ "_" ++ parse_sequence n ++ "_" ++
      parse_modality n ++ "_" ++ run
  | .anat => subject ++ "_" ++ session ++ "_" ++ parse_sequence n ++ "_" ++ run
  | .fmap => subject ++ "_" ++ session ++ "_" ++ parse_sequence n ++ "_" ++ run ++ "_revpe"

/-- Processing of one nonempty stem by copy_section_list: the naming
decision (mutating the counters before any file lookup) and then the copy
loop over the two extensions. -/
def copyStem (subject session : String) (sect : Sect) (mode : Filenaming)
    (found : String → String → Bool) (c : Counters) (stem : String) :
    Counters × StemRec :=
  match mode with
  | .preserve =>
    (c, ⟨stem, .preserve, foundCopies found stem stem⟩)
  | .custom =>
    match parse_run (normalize_stem stem) with
    | some r =>
      (c, ⟨stem,
        .custom (parse_sequence (normalize_stem stem))
          (modFor sect (normalize_stem stem)) r false
          (customOutStem subject session sect (normalize_stem stem) r),
        foundCopies found stem (customOutStem subject session sect (normalize_stem stem) r)⟩)
    | none =>
      (updC c (customKeyOf sect stem) (c (customKeyOf sect stem) + 1),
       ⟨stem,
        .custom (parse_sequence (normalize_stem stem))
          (modFor sect (normalize_stem stem))
          (runLabel (c (customKeyOf sect stem) + 1)) true
          (customOutStem subject session sect (normalize_stem stem)
            (runLabel (c (customKeyOf sect stem) + 1))),
        foundCopies found stem (customOutStem subject session sect (normalize_stem stem)
          (runLabel (c (customKeyOf sect stem) + 1)))⟩)
  | .bids =>
    let cs := bidsSuffixFor sect c
    (cs.1, ⟨stem, .bids cs.2,
      foundCopies found stem (subject ++ "_" ++ session ++ "_" ++ cs.2)⟩)

/-- copy_section_list: fold over the stems of one section, skipping empty
stems, threading the counters. -/
def copySection (subject session : String) (sect : Sect) (mode : Filenaming)
    (found : String → String → Bool) : List String → Counters → Counters × List StemRec
  | [], c => (c, [])
  | stem :: rest, c =>
    if stem = "" then copySection subject session sect mode found rest c
    else
      let cr := copyStem subject session sect mode found c stem
      let tail := copySection subject session sect mode found rest cr.1
      (tail.1, cr.2 :: tail.2)

/-- The all-zero counter table a placement pass starts from. -/
def zeroCounters : Counters := fun _ => 0

/-- Case-sensitive prefix test on strings. -/
def startsWithStr (s pre : String) : Bool := s.data.take pre.data.length = pre.data

/-- Does this record describe a custom-mode run synthesized from the
counter of key k? -/
def isFallbackKey (sect : Sect) (k : String) (r : StemRec) : Bool :=
  match r.naming with
  | .custom seq mod _ fc _ => fc && decide (keyFor sect seq mod = k)
  | _ => false

/-- The run label a custom-mode record was assigned. -/
def runOf (r : StemRec) : String :=
  match r.naming with
  | .custom _ _ run _ _ => run
  | _ => ""

/-- The expected sequence of run labels: runSeq a m lists the labels for
numbers a, a+1, ..., a+m-1. -/
def runSeq (a : Nat) : Nat → List String
  | 0 => []
  | m + 1 => runLabel a :: runSeq (a + 1) m

/-- Custom-mode records with an explicit run token carry that token:
a Boolean check over a whole trace. -/
def explicitRunsOk (recs : List StemRec) : Bool :=
  recs.all fun r =>
    match r.naming with
    | .custom _ _ run fc _ =>
      if fc then true else decide (parse_run (normalize_stem r.stem) = some run)
    | _ => true

/-- The stems of a section list that draw from the counter of key k:
nonempty, no run token, key k. -/
def drawsFrom (sect : Sect) (k : String) (stem : String) : Bool :=
  decide (stem ≠ "") && decide (parse_run (normalize_stem stem) = none) &&
    decide (customKeyOf sect stem = k)

/-! ## generate_bids_config.py : source scanner

scan_source globs *.nii then *.nii.gz recursively and sorts the combined
list by natural_sort_key of the filename.  Directory enumeration is
abstracted by the incoming list of filenames; the natural key is a list of
integer and string chunks, compared as Python compares lists, where
comparing an integer chunk against a string chunk raises TypeError
(modelled by none). -/

/-- Group consecutive characters by str.isdigit, as itertools.groupby. -/
def natKeyGroups : List Char → List (Bool × List Char)
  | [] => []
  | c :: t =>
    match natKeyGroups t with
    | [] => [(isDigitC c, [c])]
    | (b, g) :: gs =>
      if isDigitC c = b then (b, c :: g) :: gs else (isDigitC c, [c]) :: (b, g) :: gs

/-- Decimal value of a digit group (int of the joined digits). -/
def digitsToNat (l : List Char) : Nat := l.foldl (fun a c => 10 * a + dval c) 0

/-- natural_sort_key: digit groups become integers, the rest stay strings. -/
def natKey (s : String) : List (Nat ⊕ String) :=
  (natKeyGroups s.data).map fun bg =>
    if bg.1 then Sum.inl (digitsToNat bg.2) else Sum.inr (String.mk bg.2)

/-- Comparison of two key chunks; comparing an integer against a string is
a Python TypeError, hence none. -/
def cmpElem : Nat ⊕ String → Nat ⊕ String → Option Ordering
  | .inl a, .inl b => some (compare a b)
  | .inr a, .inr b => some (compare a b)
  | _, _ => none

/-- Python list comparison of two keys. -/
def cmpKey : List (Nat ⊕ String) → List (Nat ⊕ String) → Option Ordering
  | [], [] => some .eq
  | [], _ :: _ => some .lt
  | _ :: _, [] => some .gt
  | a :: as, b :: bs =>
    match cmpElem a b with
    | none => none
    | some .eq => cmpKey as bs
    | some o => some o

/-- Stable insertion by natural key: a new name goes before the first
strictly greater entry, after equals. -/
def insertByNat (x : String) : List String → Option (List String)
  | [] => some [x]
  | y :: t =>
    match cmpKey (natKey x) (natKey y) with
    | none => none
    | some .lt => some (x :: y :: t)
    | some _ => (insertByNat x t).map (y :: ·)

/-- Stable sort by natural key (sorted is stable; on fully comparable
inputs any stable sort gives the same list). -/
def sortNat (l : List String) : Option (List String) :=
  l.foldlM (fun acc n => insertByNat n acc) []

/-- scan_source: the *.nii glob results then the *.nii.gz glob results,
sorted by the natural key of the filename. -/
def scanSource (names : List String) : Option (List String) :=
  sortNat ((names.filter fun n => endsWithS n ".nii") ++
    (names.filter fun n => endsWithS n ".nii.gz"))

/-! ## generate_bids_config.py : series id and rule patterns -/

/-- pathlib stem: drop the last extension when the rightmost dot is
neither the first nor the last character. -/
def pyStem (name : String) : String :=
  let l := name.data
  let b := l.reverse.takeWhile fun c => decide (c ≠ '.')
  if b.length = l.length then name
  else if 0 < l.length - 1 - b.length ∧ 0 < b.length then
    String.mk (l.take (l.length - 1 - b.length))
  else name

/-- series_id: the filename without .nii or .nii.gz. -/
def series_id (name : String) : String :=
  if endsWithS name ".nii.gz" then String.mk (name.data.take (name.data.length - 7))
  else pyStem name

/-- SKIP_PATTERNS: localizer or scout, case-insensitive. -/
def skipMatch (f : String) : Bool := containsCIs f "localizer" || containsCIs f "scout"

/-- SBREF_PAT: SBRef, case-insensitive. -/
def sbrefMatch (f : String) : Bool := containsCIs f "sbref"

/-- The anatomical pattern T1 or ADNI or MPRAGE or MP2RAGE or me4. -/
def anatMatch (f : String) : Bool :=
  containsCIs f "t1" || containsCIs f "adni" || containsCIs f "mprage" ||
    containsCIs f "mp2rage" || containsCIs f "me4"

/-- The functional pattern bold. -/
def boldMatch (f : String) : Bool := containsCIs f "bold"

/-- The field-map pattern field or gre. -/
def fmapMatch (f : String) : Bool := containsCIs f "field" || containsCIs f "gre"

/-- The field-map role heuristic: e1 means first-echo magnitude, else
ph or phase means second-echo phase, else first-echo phase. -/
def fmapRoleOf (f : String) : String :=
  if containsCIs f "e1" then "magnitude1"
  else if containsCIs f "ph" || containsCIs f "phase" then "phase2"
  else "phase1"

/-! ## generate_bids_config.py : task label derivation -/

/-- Python str.split on a single underscore: empty parts are kept and the
empty string splits to one empty part. -/
def splitUnderscore : List Char → List (List Char)
  | [] => [[]]
  | c :: t =>
    if c = '_' then [] :: splitUnderscore t
    else
      match splitUnderscore t with
      | [] => [[c]]
      | g :: gs => (c :: g) :: gs

/-- The underscore-delimited tokens of a filename. -/
def tokensOf (fname : String) : List String :=
  (splitUnderscore fname.data).map String.mk

/-- The part of a token after its first dash, none when there is no dash
(the uncaught IndexError of task_token.split). -/
def splitAfterFirstDash (t : String) : Option String :=
  match t.data.dropWhile (fun c => decide (c ≠ '-')) with
  | [] => none
  | _ :: rest => some (String.mk rest)

/-- Task-label derivation for a functional match: the forced label when
given; else the part after the first dash of the first underscore token
whose lowercase form starts with task (none: the IndexError when that
token has no dash); else the token before the first token containing bold,
with the Python index -1 wrapping to the last token when the bold token is
first, and an empty result replaced by task.  The result is lowercased. -/
def taskLabelOf (force : Option String) (fname : String) : Option String :=
  match force with
  | some f => some (lowerStr f)
  | none =>
    let tokens := tokensOf fname
    match tokens.find? (fun t => startsWithStr (lowerStr t) "task") with
    | some tt =>
      match splitAfterFirstDash tt with
      | some rest => some (lowerStr rest)
      | none => none
    | none =>
      match tokens.findIdx? (fun t => containsCIs t "bold") with
      | some i =>
        let pre := if i = 0 then tokens.getLastD "" else tokens.getD (i - 1) ""
        some (lowerStr (if pre = "" then "task" else pre))
      | none => none

/-! ## generate_bids_config.py : categorise

The mapping dicts become insertion-ordered association lists; the per-task
run counters a total function; the pending SBRef an Option holding the
(stem, filename) pair.  A Python crash (the IndexError of the task
derivation) makes the whole fold return none. -/

/-- One functional run: the bold stem and an optional attached sbref stem. -/
structure RunEntry where
  bold : String
  sbref : Option String
deriving DecidableEq, Repr

/-- The mapping under construction: anat label to stems, func task to run
label to entry, fmap type to role to stem. -/
structure BMapping where
  anat : List (String × List String)
  func : List (String × List (String × RunEntry))
  fmap : List (String × List (String × String))
deriving DecidableEq, Repr

/-- Association lookup (Python dict membership and access). -/
def lookupA {α : Type} : List (String × α) → String → Option α
  | [], _ => none
  | (k', v) :: t, k => if k' = k then some v else lookupA t k

/-- Plain dict assignment: replace in place or append at the end. -/
def setA {α : Type} : List (String × α) → String → α → List (String × α)
  | [], k, v => [(k, v)]
  | (k', v') :: t, k, v => if k' = k then (k, v) :: t else (k', v') :: setA t k v

/-- setdefault followed by an in-place update of the stored value. -/
def modA {α : Type} : List (String × α) → String → α → (α → α) → List (String × α)
  | [], k, d, f => [(k, f d)]
  | (k', v) :: t, k, d, f =>
    if k' = k then (k, f v) :: t else (k', v) :: modA t k d f

/-- The classifier state while folding over the scanned files. -/
structure CatState where
  m : BMapping
  rc : Counters
  pending : Option (String × String)

/-- One iteration of the categorise loop: skip patterns, SBRef, the
anatomical rule, the functional rule (with task derivation, run counter
and pending-SBRef attachment), the field-map rule, else nothing. -/
def catStep (force : Option String) (st : CatState) (fname : String) :
    Option CatState :=
  let sid := series_id fname
  if skipMatch fname then some st
  else if sbrefMatch fname then some { st with pending := some (sid, fname) }
  else if anatMatch fname then
    some { st with m := { st.m with
      anat := modA st.m.anat "T1w" [] (fun l => l ++ [sid]) } }
  else if boldMatch fname then
    match taskLabelOf force fname with
    | none => none
    | some task =>
      let cnt := st.rc task + 1
      some { m := { st.m with
               func := modA st.m.func task []
                 (fun tr => setA tr (runLabel cnt) ⟨sid, st.pending.map Prod.fst⟩) },
             rc := updC st.rc task cnt,
             pending := none }
  else if fmapMatch fname then
    some { st with m := { st.m with
      fmap := modA st.m.fmap "gre" [] (fun r => setA r (fmapRoleOf fname) sid) } }
  else some st

/-- The empty initial classifier state. -/
def initCatState : CatState := ⟨⟨[], [], []⟩, fun _ => 0, none⟩

/-- The categorise loop as an explicit fold, none on a crash. -/
def catFold (force : Option String) : List String → CatState → Option CatState
  | [], st => some st
  | f :: rest, st =>
    match catStep force st f with
    | none => none
    | some st' => catFold force rest st'

/-- categorise from generate_bids_config.py. -/
def categorise (files : List String) (force : Option String) : Option BMapping :=
  (catFold force files initCatState).map CatState.m

/-! ## generate_bids_config.py : task renames -/

/-- dict.pop: remove a key wherever it sits. -/
def eraseA {α : Type} : List (String × α) → String → List (String × α)
  | [], _ => []
  | (k', v) :: t, k => if k' = k then t else (k', v) :: eraseA t k

/-- One OLD=NEW rename on the functional section: skipped when OLD is
absent, aborted when NEW is already a key, otherwise the run tree moves
from OLD to NEW (popped, then bound at NEW, which appends at the end). -/
def applyRename (func : List (String × List (String × RunEntry)))
    (old new : String) : List (String × List (String × RunEntry)) :=
  match lookupA func old with
  | none => func
  | some tree =>
    match lookupA func new with
    | some _ => func
    | none => eraseA func old ++ [(new, tree)]

/-- apply_task_renames: every pair applied in order to the functional
section. -/
def applyRenames (func : List (String × List (String × RunEntry))) :
    List (String × String) → List (String × List (String × RunEntry))
  | [] => func
  | (old, new) :: rest => applyRenames (applyRename func old new) rest

/-! ## Claim-side declarative notions

These definitions follow the wording of the specification; the claim
theorems relate them to the executable embedding above. -/

/-- The string contains the pattern as a case-insensitive substring. -/
def ContainsCI (s pat : String) : Prop :=
  ∃ pre mid suf : List Char, s.data = pre ++ mid ++ suf ∧ lcs mid = lcs pat.data

/-- tt is the first underscore token of the filename whose lowercase form
starts with task. -/
def FirstTaskSeg (fname tt : String) : Prop :=
  ∃ pre suf : List String, tokensOf fname = pre ++ tt :: suf ∧
    startsWithStr (lowerStr tt) "task" = true ∧
    ∀ t ∈ pre, startsWithStr (lowerStr t) "task" = false

/-- No underscore token of the filename starts with task. -/
def NoTaskSeg (fname : String) : Prop :=
  ∀ t ∈ tokensOf fname, startsWithStr (lowerStr t) "task" = false

/-- The first underscore token containing bold sits at index i. -/
def FirstBoldIdx (fname : String) (i : Nat) : Prop :=
  ∃ (pre : List String) (t : String) (suf : List String),
    tokensOf fname = pre ++ t :: suf ∧ pre.length = i ∧
    containsCIs t "bold" = true ∧ ∀ u ∈ pre, containsCIs u "bold" = false

/-- A file that reaches the functional rule of categorise: not skipped,
not an SBRef, not anatomical, and matching bold. -/
def funcBranch (f : String) : Bool :=
  !skipMatch f && !sbrefMatch f && !anatMatch f && boldMatch f

/-- A file that reaches the SBRef rule of categorise: not skipped and
matching SBRef. -/
def sbrefReach (f : String) : Bool := !skipMatch f && sbrefMatch f

/-! ### Run tokens, declaratively

The run-token patterns, stated as decompositions of the stem: a token is
the literal run (case-insensitive) preceded by the start of the stem or a
separator, followed by an optional separator and one or two digits.  The
end-anchored pattern requires the digits to end the stem; the anywhere
pattern requires a word boundary after the digits. -/

/-- The lookbehind of the run patterns: the token starts the string (when
the flag allows the start anchor) or is preceded by a separator, which the
pattern consumes as part of pre. -/
def PreOk (b : Bool) (pre : List Char) : Prop :=
  (pre = [] ∧ b = true) ∨ ∃ p c, pre = p ++ [c] ∧ isSepC c = true

/-- The optional separator between run and the digits. -/
def SepOpt (sep : List Char) : Prop :=
  sep = [] ∨ ∃ c, sep = [c] ∧ isSepC c = true

/-- One or two decimal digits. -/
def DigitsOk (ds : List Char) : Prop :=
  ds ≠ [] ∧ ds.length ≤ 2 ∧ ∀ c ∈ ds, isDigitC c = true

/-- The literal run, case-insensitive. -/
def RunCI (rn : List Char) : Prop := lcs rn = ['r', 'u', 'n']

/-- The regex word boundary after a digit: end of string or a non-word
character. -/
def WordBoundaryAt : List Char → Prop
  | [] => True
  | c :: _ => isWordC c = false

/-- An end-anchored run token under boundary flag b. -/
def ExplicitEndTokB (b : Bool) (s : List Char) (n : Nat) : Prop :=
  ∃ pre rn sep ds, s = pre ++ (rn ++ (sep ++ ds)) ∧ RunCI rn ∧ PreOk b pre ∧
    SepOpt sep ∧ DigitsOk ds ∧ n = digitsToNat ds

/-- The stem ends with an explicit run token of value n. -/
def ExplicitEndTok (s : List Char) (n : Nat) : Prop := ExplicitEndTokB true s n

/-- A word-boundary-guarded run token at position p (the length of pre)
with value n, under boundary flag b. -/
def GuardedTokB (b : Bool) (s : List Char) (p n : Nat) : Prop :=
  ∃ pre rn sep ds rest, s = pre ++ (rn ++ (sep ++ (ds ++ rest))) ∧ RunCI rn ∧
    PreOk b pre ∧ SepOpt sep ∧ DigitsOk ds ∧ WordBoundaryAt rest ∧
    pre.length = p ∧ n = digitsToNat ds

/-- Some guarded run token of value n occurs in the stem. -/
def GuardedTok (s : List Char) (n : Nat) : Prop := ∃ p, GuardedTokB true s p n

/-- n is the value of the rightmost guarded run token of the stem. -/
def RightmostGuarded (s : List Char) (n : Nat) : Prop :=
  ∃ p, GuardedTokB true s p n ∧ ∀ p' n', GuardedTokB true s p' n' → p' ≤ p

/-- A run token as the claim words it, without the word-boundary guard:
run, an optional separator, one or two digits, anywhere in the stem. -/
def NaiveRunTok (s : List Char) : Prop :=
  ∃ pre rn sep ds rest, s = pre ++ (rn ++ (sep ++ (ds ++ rest))) ∧ RunCI rn ∧
    PreOk true pre ∧ SepOpt sep ∧ DigitsOk ds

end MPIpe

namespace MPIpe

lemma copySection_cons_empty (subject session : String) (sect : Sect)
    (mode : Filenaming) (found : String → String → Bool) (rest : List String)
    (c : Counters) :
    copySection subject session sect mode found ("" :: rest) c =
      copySection subject session sect mode found rest c := by
  simp [copySection]

lemma copySection_cons (subject session : String) (sect : Sect)
    (mode : Filenaming) (found : String → String → Bool) (stem : String)
    (rest : List String) (c : Counters) (hs : stem ≠ "") :
    copySection subject session sect mode found (stem :: rest) c =
      ((copySection subject session sect mode found rest
          (copyStem subject session sect mode found c stem).1).1,
       (copyStem subject session sect mode found c stem).2 ::
         (copySection subject session sect mode found rest
           (copyStem subject session sect mode found c stem).1).2) := by
  simp [copySection, hs]

lemma copyStem_custom_some (subject session : String) (sect : Sect)
    (found : String → String → Bool) (c : Counters) (stem r : String)
    (h : parse_run (normalize_stem stem) = some r) :
    copyStem subject session sect .custom found c stem =
      (c, ⟨stem,
        .custom (parse_sequence (normalize_stem stem))
          (modFor sect (normalize_stem stem)) r false
          (customOutStem subject session sect (normalize_stem stem) r),
        foundCopies found stem
          (customOutStem subject session sect (normalize_stem stem) r)⟩) := by
  simp only [copyStem, h]

lemma copyStem_custom_none (subject session : String) (sect : Sect)
    (found : String → String → Bool) (c : Counters) (stem : String)
    (h : parse_run (normalize_stem stem) = none) :
    copyStem subject session sect .custom found c stem =
      (updC c (customKeyOf sect stem) (c (customKeyOf sect stem) + 1),
       ⟨stem,
        .custom (parse_sequence (normalize_stem stem))
          (modFor sect (normalize_stem stem))
          (runLabel (c (customKeyOf sect stem) + 1)) true
          (customOutStem subject session sect (normalize_stem stem)
            (runLabel (c (customKeyOf sect stem) + 1))),
        foundCopies found stem (customOutStem subject session sect (normalize_stem stem)
          (runLabel (c (customKeyOf sect stem) + 1)))⟩) := by
  simp only [copyStem, h]

lemma isFallbackKey_custom (sect : Sect) (k stem : String) (seq : String)
    (mod : Option String) (run : String) (fc : Bool) (out : String)
    (cp : List String) :
    isFallbackKey sect k ⟨stem, .custom seq mod run fc out, cp⟩ =
      (fc && decide (keyFor sect seq mod = k)) := rfl

lemma runOf_custom (stem : String) (seq : String) (mod : Option String)
    (run : String) (fc : Bool) (out : String) (cp : List String) :
    runOf ⟨stem, .custom seq mod run fc out, cp⟩ = run := rfl

lemma customKeyOf_def (sect : Sect) (stem : String) :
    customKeyOf sect stem =
      keyFor sect (parse_sequence (normalize_stem stem))
        (modFor sect (normalize_stem stem)) := rfl

lemma copySection_fallback (subject session : String) (sect : Sect)
    (found : String → String → Bool) (k : String) (stems : List String) :
    ∀ c : Counters,
      (((copySection subject session sect .custom found stems c).2.filter
          (isFallbackKey sect k)).map runOf =
        runSeq (c k + 1)
          (((copySection subject session sect .custom found stems c).2.filter
            (isFallbackKey sect k)).length)) ∧
      (copySection subject session sect .custom found stems c).1 k =
        c k + ((copySection subject session sect .custom found stems c).2.filter
          (isFallbackKey sect k)).length := by
  induction stems with
  | nil => intro c; simp [copySection, runSeq]
  | cons stem rest ih =>
    intro c
    by_cases hs : stem = ""
    · subst hs; rw [copySection_cons_empty]; exact ih c
    · rcases hpr : parse_run (normalize_stem stem) with _ | r
      · rw [copySection_cons subject session sect _ found stem rest c hs,
          copyStem_custom_none subject session sect found c stem hpr]
        have hik := ih (updC c (customKeyOf sect stem) (c (customKeyOf sect stem) + 1))
        by_cases hk : customKeyOf sect stem = k
        · subst hk
          simp only [List.filter_cons, isFallbackKey_custom, ← customKeyOf_def,
            Bool.true_and, decide_True, eq_self_iff_true, if_true, List.map_cons,
            List.length_cons, runOf_custom]
          have hck : updC c (customKeyOf sect stem)
              (c (customKeyOf sect stem) + 1) (customKeyOf sect stem) =
              c (customKeyOf sect stem) + 1 := by simp [updC]
          rw [hck] at hik
          refine ⟨?_, ?_⟩
          · rw [hik.1, runSeq]
          · rw [hik.2]; omega
        · have hkk : decide (keyFor sect (parse_sequence (normalize_stem stem))
              (modFor sect (normalize_stem stem)) = k) = false := by
            rw [← customKeyOf_def]; exact decide_eq_false hk
          simp only [List.filter_cons, isFallbackKey_custom, Bool.true_and, hkk,
            Bool.false_eq_true, if_false]
          have hck : updC c (customKeyOf sect stem)
              (c (customKeyOf sect stem) + 1) k = c k := by
            simp [updC]
            intro h; exact absurd h.symm hk
          rw [hck] at hik
          exact hik
      · rw [copySection_cons subject session sect _ found stem rest c hs,
          copyStem_custom_some subject session sect found c stem r hpr]
        have hik := ih c
        simp only [List.filter_cons, isFallbackKey_custom, Bool.false_and,
          Bool.false_eq_true, if_false]
        exact hik

lemma copySection_explicitRunsOk (subject session : String) (sect : Sect)
    (found : String → String → Bool) (stems : List String) :
    ∀ c : Counters,
      explicitRunsOk (copySection subject session sect .custom found stems c).2 = true := by
  induction stems with
  | nil => intro c; simp [copySection, explicitRunsOk]
  | cons stem rest ih =>
    intro c
    by_cases hs : stem = ""
    · subst hs; rw [copySection_cons_empty]; exact ih c
    · rcases hpr : parse_run (normalize_stem stem) with _ | r
      · rw [copySection_cons subject session sect _ found stem rest c hs,
          copyStem_custom_none subject session sect found c stem hpr]
        have hik := ih (updC c (customKeyOf sect stem) (c (customKeyOf sect stem) + 1))
        simp only [explicitRunsOk, List.all_cons] at hik ⊢
        simpa using hik
      · rw [copySection_cons subject session sect _ found stem rest c hs,
          copyStem_custom_some subject session sect found c stem r hpr]
        have hik := ih c
        simp only [explicitRunsOk, List.all_cons] at hik ⊢
        simp only [hik, Bool.and_true]
        simp [hpr]

/-- C1: in custom naming mode, for every section list processed from fresh
counters and every counter key k, the stems whose normalized form yields no
run token and whose (section, sequence, modality-or-none) key is k receive
the run labels for 1, 2, 3, ... in processing order; the final counter at k
equals the number of such stems (so keys differing in section, sequence or
modality use their own counter starting at 1), and every stem whose
normalized form does yield a run token uses exactly that token (and, by the
counter equation holding for every key, advances no counter). -/
theorem c1_custom_run_counters (subject session : String) (sect : Sect)
    (found : String → String → Bool) (stems : List String) (k : String) :
    (((copySection subject session sect .custom found stems zeroCounters).2.filter
        (isFallbackKey sect k)).map runOf =
      runSeq 1 (((copySection subject session sect .custom found stems
        zeroCounters).2.filter (isFallbackKey sect k)).length)) ∧
    ((copySection subject session sect .custom found stems zeroCounters).1 k =
      ((copySection subject session sect .custom found stems zeroCounters).2.filter
        (isFallbackKey sect k)).length) ∧
    explicitRunsOk (copySection subject session sect .custom found stems
      zeroCounters).2 = true := by
  have h := copySection_fallback subject session sect found k stems zeroCounters
  have h2 := copySection_explicitRunsOk subject session sect found stems zeroCounters
  exact ⟨by simpa [zeroCounters] using h.1, by simpa [zeroCounters] using h.2, h2⟩

lemma startsWithCI_iff (pat : List Char) : ∀ s : List Char,
    startsWithCI s pat = true ↔ ∃ mid suf, s = mid ++ suf ∧ lcs mid = lcs pat := by
  induction pat with
  | nil =>
    intro s
    constructor
    · intro _; exact ⟨[], s, rfl, rfl⟩
    · intro _; cases s <;> rfl
  | cons p ps ih =>
    intro s
    cases s with
    | nil =>
      simp only [startsWithCI]
      constructor
      · intro h; exact absurd h (by simp)
      · rintro ⟨mid, suf, hs, hm⟩
        rcases mid with _ | ⟨m, mid'⟩
        · simp [lcs] at hm
        · simp at hs
    | cons c cs =>
      simp only [startsWithCI, Bool.and_eq_true, decide_eq_true_eq]
      constructor
      · rintro ⟨hcp, h⟩
        rcases (ih cs).1 h with ⟨mid, suf, hcs, hm⟩
        refine ⟨c :: mid, suf, by rw [hcs]; rfl, ?_⟩
        simp only [lcs, List.map_cons] at hm ⊢
        rw [hcp]
        rw [hm]
      · rintro ⟨mid, suf, hs, hm⟩
        rcases mid with _ | ⟨m, mid'⟩
        · simp [lcs] at hm
        · simp only [List.cons_append, List.cons.injEq] at hs
          rcases hs with ⟨hc, hcs⟩
          subst hc
          simp only [lcs, List.map_cons, List.cons.injEq] at hm
          exact ⟨hm.1, (ih cs).2 ⟨mid', suf, hcs, hm.2⟩⟩

lemma containsCI_eq_exists (pat : List Char) : ∀ s : List Char,
    containsCI s pat = true ↔
      ∃ pre rest, s = pre ++ rest ∧ startsWithCI rest pat = true := by
  intro s
  induction s with
  | nil =>
    simp only [containsCI]
    constructor
    · intro h; exact ⟨[], [], rfl, h⟩
    · rintro ⟨pre, rest, hs, hw⟩
      rcases pre with _ | ⟨p, pre'⟩
      · rcases rest with _ | ⟨r, rest'⟩
        · exact hw
        · simp at hs
      · simp at hs
  | cons c cs ih =>
    simp only [containsCI, Bool.or_eq_true]
    constructor
    · rintro (h | h)
      · exact ⟨[], c :: cs, rfl, h⟩
      · rcases ih.1 h with ⟨pre, rest, hs, hw⟩
        exact ⟨c :: pre, rest, by rw [hs]; rfl, hw⟩
    · rintro ⟨pre, rest, hs, hw⟩
      rcases pre with _ | ⟨p, pre'⟩
      · left; simp only [List.nil_append] at hs; rw [← hs] at hw; exact hw
      · right
        simp only [List.cons_append, List.cons.injEq] at hs
        exact ih.2 ⟨pre', rest, hs.2, hw⟩

lemma containsCIs_iff (s pat : String) : containsCIs s pat = true ↔ ContainsCI s pat := by
  unfold containsCIs ContainsCI
  rw [containsCI_eq_exists]
  constructor
  · rintro ⟨pre, rest, h, hw⟩
    rcases (startsWithCI_iff _ rest).1 hw with ⟨mid, suf, hr, hm⟩
    exact ⟨pre, mid, suf, by rw [h, hr, List.append_assoc], hm⟩
  · rintro ⟨pre, mid, suf, h, hm⟩
    exact ⟨pre, mid ++ suf, by rw [h, List.append_assoc],
      (startsWithCI_iff _ _).2 ⟨mid, suf, rfl, hm⟩⟩

lemma categorise_single (f : String) (force : Option String) :
    categorise [f] force = (catStep force initCatState f).map CatState.m := by
  cases h : catStep force initCatState f <;> simp [categorise, catFold, h]

lemma catStep_skip (force : Option String) (st : CatState) (f : String)
    (h : skipMatch f = true) : catStep force st f = some st := by
  simp [catStep, h]

lemma catStep_sbref (force : Option String) (st : CatState) (f : String)
    (h1 : skipMatch f = false) (h2 : sbrefMatch f = true) :
    catStep force st f = some { st with pending := some (series_id f, f) } := by
  simp [catStep, h1, h2]

lemma catStep_anat (force : Option String) (st : CatState) (f : String)
    (h1 : skipMatch f = false) (h2 : sbrefMatch f = false)
    (h3 : anatMatch f = true) :
    catStep force st f = some { st with m := { st.m with
      anat := modA st.m.anat "T1w" [] (fun l => l ++ [series_id f]) } } := by
  simp [catStep, h1, h2, h3]

lemma catStep_func_some (force : Option String) (st : CatState) (f t : String)
    (h1 : skipMatch f = false) (h2 : sbrefMatch f = false)
    (h3 : anatMatch f = false) (h4 : boldMatch f = true)
    (ht : taskLabelOf force f = some t) :
    catStep force st f = some
      ⟨{ st.m with func := (modA st.m.func t [] (fun tr =>
          setA tr (runLabel (st.rc t + 1)) ⟨series_id f, st.pending.map Prod.fst⟩)) },
       updC st.rc t (st.rc t + 1), none⟩ := by
  simp [catStep, h1, h2, h3, h4, ht]

lemma catStep_func_none (force : Option String) (st : CatState) (f : String)
    (h1 : skipMatch f = false) (h2 : sbrefMatch f = false)
    (h3 : anatMatch f = false) (h4 : boldMatch f = true)
    (ht : taskLabelOf force f = none) :
    catStep force st f = none := by
  simp [catStep, h1, h2, h3, h4, ht]

lemma catStep_fmap (force : Option String) (st : CatState) (f : String)
    (h1 : skipMatch f = false) (h2 : sbrefMatch f = false)
    (h3 : anatMatch f = false) (h4 : boldMatch f = false)
    (h5 : fmapMatch f = true) :
    catStep force st f = some { st with m := { st.m with
      fmap := modA st.m.fmap "gre" []
        (fun r => setA r (fmapRoleOf f) (series_id f)) } } := by
  simp [catStep, h1, h2, h3, h4, h5]

lemma catStep_norule (force : Option String) (st : CatState) (f : String)
    (h1 : skipMatch f = false) (h2 : sbrefMatch f = false)
    (h3 : anatMatch f = false) (h4 : boldMatch f = false)
    (h5 : fmapMatch f = false) : catStep force st f = some st := by
  simp [catStep, h1, h2, h3, h4, h5]

lemma copyStem_counters_found (subject session : String) (sect : Sect)
    (mode : Filenaming) (found found' : String → String → Bool) (c : Counters)
    (stem : String) :
    (copyStem subject session sect mode found c stem).1 =
      (copyStem subject session sect mode found' c stem).1 := by
  cases mode
  · rfl
  · rcases hpr : parse_run (normalize_stem stem) with _ | r <;>
      simp only [copyStem, hpr]
  · rfl

lemma copySection_counters_found (subject session : String) (sect : Sect)
    (mode : Filenaming) (found found' : String → String → Bool)
    (stems : List String) :
    ∀ c : Counters,
      (copySection subject session sect mode found stems c).1 =
        (copySection subject session sect mode found' stems c).1 := by
  induction stems with
  | nil => intro c; rfl
  | cons stem rest ih =>
    intro c
    by_cases hs : stem = ""
    · subst hs; rw [copySection_cons_empty, copySection_cons_empty]; exact ih c
    · rw [copySection_cons subject session sect mode found stem rest c hs,
        copySection_cons subject session sect mode found' stem rest c hs]
      rw [copyStem_counters_found subject session sect mode found found' c stem]
      exact ih _

lemma copyStem_bids_func (subject session : String)
    (found : String → String → Bool) (c : Counters) (stem : String) :
    (copyStem subject session .func .bids found c stem).1 =
      updC c "bids_func_idx" (c "bids_func_idx" + 1) := rfl

lemma copyStem_bids_fmap (subject session : String)
    (found : String → String → Bool) (c : Counters) (stem : String) :
    (copyStem subject session .fmap .bids found c stem).1 =
      updC c "bids_fmap_idx" (c "bids_fmap_idx" + 1) := rfl

lemma copySection_bids_func_count (subject session : String)
    (found : String → String → Bool) (stems : List String) :
    ∀ c : Counters,
      (copySection subject session .func .bids found stems c).1 "bids_func_idx" =
        c "bids_func_idx" + (stems.filter fun s => decide (s ≠ "")).length := by
  induction stems with
  | nil => intro c; simp [copySection]
  | cons stem rest ih =>
    intro c
    by_cases hs : stem = ""
    · subst hs; rw [copySection_cons_empty]
      simpa using ih c
    · rw [copySection_cons subject session .func .bids found stem rest c hs,
        copyStem_bids_func]
      have hik := ih (updC c "bids_func_idx" (c "bids_func_idx" + 1))
      simp only [updC, if_pos rfl] at hik
      simp [hik, List.filter_cons, hs]
      omega

lemma copySection_bids_fmap_count (subject session : String)
    (found : String → String → Bool) (stems : List String) :
    ∀ c : Counters,
      (copySection subject session .fmap .bids found stems c).1 "bids_fmap_idx" =
        c "bids_fmap_idx" + (stems.filter fun s => decide (s ≠ "")).length := by
  induction stems with
  | nil => intro c; simp [copySection]
  | cons stem rest ih =>
    intro c
    by_cases hs : stem = ""
    · subst hs; rw [copySection_cons_empty]
      simpa using ih c
    · rw [copySection_cons subject session .fmap .bids found stem rest c hs,
        copyStem_bids_fmap]
      have hik := ih (updC c "bids_fmap_idx" (c "bids_fmap_idx" + 1))
      simp only [updC, if_pos rfl] at hik
      simp [hik, List.filter_cons, hs]
      omega

lemma copySection_custom_count (subject session : String) (sect : Sect)
    (found : String → String → Bool) (k : String) (stems : List String) :
    ∀ c : Counters,
      (copySection subject session sect .custom found stems c).1 k =
        c k + (stems.filter (drawsFrom sect k)).length := by
  induction stems with
  | nil => intro c; simp [copySection]
  | cons stem rest ih =>
    intro c
    by_cases hs : stem = ""
    · subst hs; rw [copySection_cons_empty]
      simpa [drawsFrom] using ih c
    · rcases hpr : parse_run (normalize_stem stem) with _ | r
      · rw [copySection_cons subject session sect .custom found stem rest c hs,
          copyStem_custom_none subject session sect found c stem hpr]
        have hik := ih (updC c (customKeyOf sect stem) (c (customKeyOf sect stem) + 1))
        by_cases hk : customKeyOf sect stem = k
        · subst hk
          have hd : drawsFrom sect (customKeyOf sect stem) stem = true := by
            simp [drawsFrom, hs, hpr]
          simp only [hik, List.filter_cons, hd, if_true, List.length_cons, updC,
            if_pos rfl]
          omega
        · have hd : drawsFrom sect k stem = false := by
            simp [drawsFrom, hs, hpr, hk]
          have hck : updC c (customKeyOf sect stem)
              (c (customKeyOf sect stem) + 1) k = c k := by
            simp [updC]
            intro h; exact absurd h.symm hk
          simp only [hik, List.filter_cons, hd, Bool.false_eq_true, if_false, hck]
      · rw [copySection_cons subject session sect .custom found stem rest c hs,
          copyStem_custom_some subject session sect found c stem r hpr]
        have hd : drawsFrom sect k stem = false := by
          simp [drawsFrom, hs, hpr]
        simp only [ih c, List.filter_cons, hd, Bool.false_eq_true, if_false]

/-- C10: counters advance per mapping stem, not per file found on disk.
The final counter table never depends on which files exist (the naming
phase, which performs all counter mutation, precedes any lookup); in bids
mode the func and fmap indices advance exactly once per nonempty stem of
their section, and in custom mode the counter of each key k advances
exactly once per nonempty stem with no run token whose
(section, sequence, modality) key is k, whether or not any data file or
sidecar for the stem exists. -/
theorem c10_counters_per_stem (subject session : String) (sect : Sect)
    (mode : Filenaming) (found found' : String → String → Bool)
    (stems : List String) (c : Counters) :
    ((copySection subject session sect mode found stems c).1 =
      (copySection subject session sect mode found' stems c).1) ∧
    (mode = .bids → sect = .func →
      (copySection subject session sect mode found stems c).1 "bids_func_idx" =
        c "bids_func_idx" + (stems.filter fun s => decide (s ≠ "")).length) ∧
    (mode = .bids → sect = .fmap →
      (copySection subject session sect mode found stems c).1 "bids_fmap_idx" =
        c "bids_fmap_idx" + (stems.filter fun s => decide (s ≠ "")).length) ∧
    (mode = .custom → ∀ k : String,
      (copySection subject session sect mode found stems c).1 k =
        c k + (stems.filter (drawsFrom sect k)).length) := by
  refine ⟨copySection_counters_found subject session sect mode found found' stems c,
    ?_, ?_, ?_⟩
  · intro hm hsec; subst hm; subst hsec
    exact copySection_bids_func_count subject session found stems c
  · intro hm hsec; subst hm; subst hsec
    exact copySection_bids_fmap_count subject session found stems c
  · intro hm; subst hm
    intro k
    exact copySection_custom_count subject session sect found k stems c

/-- C10 witness: concrete instances of the three counted conjuncts of
c10_counters_per_stem, with files entirely absent (found always false),
showing the counters advance regardless. -/
theorem c10_counters_per_stem_witness :
    ((copySection "01" "01" Sect.func Filenaming.bids (fun _ _ => false)
      ["a", "", "b"] zeroCounters).1 "bids_func_idx" = 2) ∧
    ((copySection "01" "01" Sect.fmap Filenaming.bids (fun _ _ => false)
      ["a"] zeroCounters).1 "bids_fmap_idx" = 1) ∧
    ((copySection "01" "01" Sect.func Filenaming.custom (fun _ _ => false)
      ["a", "", "b_run-07"] zeroCounters).1 "func:unknownseq:prep" = 1) := by
  refine ⟨?_, ?_, ?_⟩
  · have h := (c10_counters_per_stem "01" "01" Sect.func Filenaming.bids
      (fun _ _ => false) (fun _ _ => true) ["a", "", "b"] zeroCounters).2.1 rfl rfl
    rw [h]; decide
  · have h := (c10_counters_per_stem "01" "01" Sect.fmap Filenaming.bids
      (fun _ _ => false) (fun _ _ => true) ["a"] zeroCounters).2.2.1 rfl rfl
    rw [h]; decide
  · have h := (c10_counters_per_stem "01" "01" Sect.func Filenaming.custom
      (fun _ _ => false) (fun _ _ => true) ["a", "", "b_run-07"]
      zeroCounters).2.2.2 rfl "func:unknownseq:prep"
    rw [h]; decide

lemma containsCIs_eq_false (s pat : String) (h : ¬ ContainsCI s pat) :
    containsCIs s pat = false := by
  cases hc : containsCIs s pat
  · rfl
  · exact absurd ((containsCIs_iff s pat).1 hc) h

/-- C2: the claim states the priority order skip, paired-reference,
field-map, anatomical, functional, so that a filename matching the
field-map and anatomical patterns lands in the field-map section.  The
code checks the anatomical rule before the field-map rule: gre_T1.nii
matches both patterns, is neither skipped nor an SBRef, and is classified
into the anatomical section with an empty field-map section. -/
theorem c2_counterexample :
    anatMatch "gre_T1.nii" = true ∧ fmapMatch "gre_T1.nii" = true ∧
    skipMatch "gre_T1.nii" = false ∧ sbrefMatch "gre_T1.nii" = false ∧
    categorise ["gre_T1.nii"] none = some ⟨[("T1w", ["gre_T1"])], [], []⟩ := by
  refine ⟨by decide, by decide, by decide, by decide, by decide⟩

/-- C2 (amended): the rule sets are evaluated in the fixed priority order
skip, paired-reference, anatomical, functional, field-map, and the first
matching rule wins; in particular a filename matching both the field-map
and the anatomical pattern (and neither skip nor SBRef) is classified into
the anatomical section, and a filename matching no rule is omitted from
the mapping without error. -/
theorem c2_rule_priority (f : String) :
    (skipMatch f = true → categorise [f] none = some ⟨[], [], []⟩) ∧
    (skipMatch f = false → sbrefMatch f = true →
      categorise [f] none = some ⟨[], [], []⟩) ∧
    (skipMatch f = false → sbrefMatch f = false → anatMatch f = true →
      categorise [f] none = some ⟨[("T1w", [series_id f])], [], []⟩) ∧
    (skipMatch f = false → sbrefMatch f = false → anatMatch f = false →
      boldMatch f = true → ∀ t, taskLabelOf none f = some t →
      categorise [f] none =
        some ⟨[], [(t, [(runLabel 1, ⟨series_id f, none⟩)])], []⟩) ∧
    (skipMatch f = false → sbrefMatch f = false → anatMatch f = false →
      boldMatch f = false → fmapMatch f = true →
      categorise [f] none =
        some ⟨[], [], [("gre", [(fmapRoleOf f, series_id f)])]⟩) ∧
    (skipMatch f = false → sbrefMatch f = false → anatMatch f = false →
      boldMatch f = false → fmapMatch f = false →
      categorise [f] none = some ⟨[], [], []⟩) := by
  refine ⟨?_, ?_, ?_, ?_, ?_, ?_⟩
  · intro h1
    rw [categorise_single, catStep_skip none initCatState f h1]
    rfl
  · intro h1 h2
    rw [categorise_single, catStep_sbref none initCatState f h1 h2]
    rfl
  · intro h1 h2 h3
    rw [categorise_single, catStep_anat none initCatState f h1 h2 h3]
    simp [initCatState, modA]
  · intro h1 h2 h3 h4 t ht
    rw [categorise_single, catStep_func_some none initCatState f t h1 h2 h3 h4 ht]
    simp [initCatState, modA, setA]
  · intro h1 h2 h3 h4 h5
    rw [categorise_single, catStep_fmap none initCatState f h1 h2 h3 h4 h5]
    simp [initCatState, modA, setA]
  · intro h1 h2 h3 h4 h5
    rw [categorise_single, catStep_norule none initCatState f h1 h2 h3 h4 h5]
    rfl

/-- C2 witness: one concrete file per rule of the amended priority order,
each classified by applying c2_rule_priority. -/
theorem c2_rule_priority_witness :
    categorise ["x_localizer.nii"] none = some ⟨[], [], []⟩ ∧
    categorise ["a_SBRef.nii"] none = some ⟨[], [], []⟩ ∧
    categorise ["gre_MPRAGE.nii"] none = some ⟨[("T1w", ["gre_MPRAGE"])], [], []⟩ ∧
    categorise ["field_bold.nii"] none =
      some ⟨[], [("field", [("run-01", ⟨"field_bold", none⟩)])], []⟩ ∧
    categorise ["gre_x.nii"] none = some ⟨[], [], [("gre", [("phase1", "gre_x")])]⟩ ∧
    categorise ["foo.nii"] none = some ⟨[], [], []⟩ := by
  refine ⟨?_, ?_, ?_, ?_, ?_, ?_⟩
  · exact (c2_rule_priority "x_localizer.nii").1 (by decide)
  · exact (c2_rule_priority "a_SBRef.nii").2.1 (by decide) (by decide)
  · rw [(c2_rule_priority "gre_MPRAGE.nii").2.2.1 (by decide) (by decide) (by decide)]
    decide
  · rw [(c2_rule_priority "field_bold.nii").2.2.2.1 (by decide) (by decide)
      (by decide) (by decide) "field" (by decide)]
    decide
  · rw [(c2_rule_priority "gre_x.nii").2.2.2.2.1 (by decide) (by decide) (by decide)
      (by decide) (by decide)]
    decide
  · exact (c2_rule_priority "foo.nii").2.2.2.2.2 (by decide) (by decide) (by decide)
      (by decide) (by decide)

/-- C7: for a file that reaches the field-map rule, the assigned role is
first-echo magnitude when the filename contains e1 (case-insensitive),
else second-echo phase when it contains ph or phase, else first-echo
phase; the e1 test takes precedence. -/
theorem c7_fmap_role (f : String)
    (h1 : skipMatch f = false) (h2 : sbrefMatch f = false)
    (h3 : anatMatch f = false) (h4 : boldMatch f = false)
    (h5 : fmapMatch f = true) :
    (ContainsCI f "e1" →
      categorise [f] none = some ⟨[], [], [("gre", [("magnitude1", series_id f)])]⟩) ∧
    (¬ ContainsCI f "e1" → (ContainsCI f "ph" ∨ ContainsCI f "phase") →
      categorise [f] none = some ⟨[], [], [("gre", [("phase2", series_id f)])]⟩) ∧
    (¬ ContainsCI f "e1" → ¬ ContainsCI f "ph" → ¬ ContainsCI f "phase" →
      categorise [f] none = some ⟨[], [], [("gre", [("phase1", series_id f)])]⟩) := by
  have hbase : categorise [f] none =
      some ⟨[], [], [("gre", [(fmapRoleOf f, series_id f)])]⟩ := by
    rw [categorise_single, catStep_fmap none initCatState f h1 h2 h3 h4 h5]
    simp [initCatState, modA, setA]
  refine ⟨?_, ?_, ?_⟩
  · intro he
    rw [hbase]
    simp [fmapRoleOf, (containsCIs_iff f "e1").2 he]
  · intro he hp
    have he' := containsCIs_eq_false f "e1" he
    rw [hbase]
    rcases hp with h | h
    · simp [fmapRoleOf, he', (containsCIs_iff f "ph").2 h]
    · simp [fmapRoleOf, he', (containsCIs_iff f "phase").2 h]
  · intro he hp hph
    rw [hbase]
    simp [fmapRoleOf, containsCIs_eq_false f "e1" he,
      containsCIs_eq_false f "ph" hp, containsCIs_eq_false f "phase" hph]

/-- C7 witness: the three roles on concrete field-map filenames, each
obtained by applying c7_fmap_role. -/
theorem c7_fmap_role_witness :
    categorise ["gre_e1.nii"] none =
      some ⟨[], [], [("gre", [("magnitude1", "gre_e1")])]⟩ ∧
    categorise ["gre_ph.nii"] none =
      some ⟨[], [], [("gre", [("phase2", "gre_ph")])]⟩ ∧
    categorise ["gre_x.nii"] none =
      some ⟨[], [], [("gre", [("phase1", "gre_x")])]⟩ := by
  refine ⟨?_, ?_, ?_⟩
  · rw [(c7_fmap_role "gre_e1.nii" (by decide) (by decide) (by decide) (by decide)
      (by decide)).1 ⟨"gre_".data, "e1".data, ".nii".data, by decide, by decide⟩]
    decide
  · rw [(c7_fmap_role "gre_ph.nii" (by decide) (by decide) (by decide) (by decide)
      (by decide)).2.1
      (fun hc => absurd ((containsCIs_iff "gre_ph.nii" "e1").2 hc) (by decide))
      (Or.inl ⟨"gre_".data, "ph".data, ".nii".data, by decide, by decide⟩)]
    decide
  · rw [(c7_fmap_role "gre_x.nii" (by decide) (by decide) (by decide) (by decide)
      (by decide)).2.2
      (fun hc => absurd ((containsCIs_iff "gre_x.nii" "e1").2 hc) (by decide))
      (fun hc => absurd ((containsCIs_iff "gre_x.nii" "ph").2 hc) (by decide))
      (fun hc => absurd ((containsCIs_iff "gre_x.nii" "phase").2 hc) (by decide))]
    decide

/-- C3: the claim states that a bare <stem>.nii and a compressed
<stem>.nii.gz are one record, the stem classified once and appearing at
most once per mapping section.  The scanner returns both files, categorise
classifies each of them, and the shared stem a_bold occupies two
functional run slots. -/
theorem c3_counterexample :
    scanSource ["a_bold.nii", "a_bold.nii.gz"] = some ["a_bold.nii", "a_bold.nii.gz"] ∧
    series_id "a_bold.nii" = series_id "a_bold.nii.gz" ∧
    categorise ["a_bold.nii", "a_bold.nii.gz"] none =
      some ⟨[], [("a", [("run-01", ⟨"a_bold", none⟩), ("run-02", ⟨"a_bold", none⟩)])],
        []⟩ := by
  refine ⟨by decide, by decide, by decide⟩

/-- C3 (amended): the scanner does not deduplicate by stem; two scanned
files with the same series id are classified independently, so a
functional stem present as both a bare and a compressed variant occupies
two run slots of the same task, one per file. -/
theorem c3_shared_stem (f1 f2 stem t : String)
    (hs1 : series_id f1 = stem) (hs2 : series_id f2 = stem)
    (h11 : skipMatch f1 = false) (h12 : sbrefMatch f1 = false)
    (h13 : anatMatch f1 = false) (h14 : boldMatch f1 = true)
    (h21 : skipMatch f2 = false) (h22 : sbrefMatch f2 = false)
    (h23 : anatMatch f2 = false) (h24 : boldMatch f2 = true)
    (ht1 : taskLabelOf none f1 = some t) (ht2 : taskLabelOf none f2 = some t) :
    categorise [f1, f2] none =
      some ⟨[], [(t, [(runLabel 1, ⟨stem, none⟩), (runLabel 2, ⟨stem, none⟩)])], []⟩ := by
  have hrl : runLabel 1 ≠ runLabel 2 := by decide
  simp only [categorise, catFold]
  rw [catStep_func_some none initCatState f1 t h11 h12 h13 h14 ht1]
  simp only [hs1, initCatState, modA, setA, Option.map_none']
  rw [catStep_func_some none _ f2 t h21 h22 h23 h24 ht2]
  simp only [hs2, modA, setA, Option.map_none']
  simp [updC, hrl]

/-- C3 witness: the bare and compressed variants of a_bold, classified by
applying c3_shared_stem, fill two functional run slots of task a. -/
theorem c3_shared_stem_witness :
    categorise ["a_bold.nii", "a_bold.nii.gz"] none =
      some ⟨[], [("a", [("run-01", ⟨"a_bold", none⟩), ("run-02", ⟨"a_bold", none⟩)])],
        []⟩ := by
  rw [c3_shared_stem "a_bold.nii" "a_bold.nii.gz" "a_bold" "a" (by decide) (by decide)
    (by decide) (by decide) (by decide) (by decide) (by decide) (by decide) (by decide)
    (by decide) (by decide) (by decide)]
  decide

lemma find?_first (p : String → Bool) (tt : String) (suf : List String) :
    ∀ pre : List String, p tt = true → (∀ t ∈ pre, p t = false) →
    (pre ++ tt :: suf).find? p = some tt := by
  intro pre
  induction pre with
  | nil =>
    intro hp _
    simpa using List.find?_cons_of_pos suf hp
  | cons a pre' ih =>
    intro hp hpre
    have ha : p a = false := hpre a (List.mem_cons_self a pre')
    simp only [List.cons_append]
    rw [List.find?_cons_of_neg _ (by simp [ha])]
    exact ih hp fun t ht => hpre t (List.mem_cons_of_mem a ht)

lemma findIdx?_first (p : String → Bool) (t : String) (suf : List String) :
    ∀ (pre : List String) (i : Nat), p t = true → (∀ u ∈ pre, p u = false) →
    (pre ++ t :: suf).findIdx? p i = some (i + pre.length) := by
  intro pre
  induction pre with
  | nil =>
    intro i hp _
    simp [List.findIdx?_cons, hp]
  | cons a pre' ih =>
    intro i hp hpre
    have ha : p a = false := hpre a (List.mem_cons_self a pre')
    simp only [List.cons_append, List.findIdx?_cons, ha, Bool.false_eq_true, if_false]
    rw [ih (i + 1) hp fun u hu => hpre u (List.mem_cons_of_mem a hu)]
    simp only [List.length_cons]
    congr 1
    omega

lemma dropWhile_until_dash (rest : List Char) :
    ∀ pre : List Char, (∀ c ∈ pre, c ≠ '-') →
    (pre ++ '-' :: rest).dropWhile (fun c => decide (c ≠ '-')) = '-' :: rest := by
  intro pre
  induction pre with
  | nil => intro _; simp [List.dropWhile]
  | cons a pre' ih =>
    intro hp
    have ha : a ≠ '-' := hp a (List.mem_cons_self a pre')
    rw [List.cons_append, List.dropWhile_cons, if_pos (by simpa using ha)]
    exact ih fun c hc => hp c (List.mem_cons_of_mem a hc)

lemma splitAfterFirstDash_some (tt : String) (pre rest : List Char)
    (h : tt.data = pre ++ '-' :: rest) (hp : ∀ c ∈ pre, c ≠ '-') :
    splitAfterFirstDash tt = some (String.mk rest) := by
  unfold splitAfterFirstDash
  rw [h, dropWhile_until_dash rest pre hp]

lemma splitAfterFirstDash_none (tt : String) (h : ∀ c ∈ tt.data, c ≠ '-') :
    splitAfterFirstDash tt = none := by
  unfold splitAfterFirstDash
  rw [List.dropWhile_eq_nil_iff.2 (by simpa using h)]

/-- C6: the claim asserts the task derivation never fails, including for a
bare task segment with no name attached and for filenames whose first
segment contains bold.  On task_bold.nii (a functional match with a bare
task segment) the derivation raises IndexError, so categorise crashes. -/
theorem c6_counterexample :
    skipMatch "task_bold.nii" = false ∧ sbrefMatch "task_bold.nii" = false ∧
    anatMatch "task_bold.nii" = false ∧ boldMatch "task_bold.nii" = true ∧
    taskLabelOf none "task_bold.nii" = none ∧
    categorise ["task_bold.nii"] none = none := by
  refine ⟨by decide, by decide, by decide, by decide, by decide, by decide⟩

/-- C6 (amended): (a) a forced task override is applied, lowercased, to
every functional match; (b) otherwise, when some underscore token's
lowercase form starts with task, the first such token supplies the label:
the part after its first dash, lowercased, and the derivation fails
(IndexError) when that token contains no dash; (c) otherwise the label is
the token before the first token containing bold, with Python index -1
wrapping to the last token when the bold token is first, the empty string
replaced by task, lowercased. -/
theorem c6_task_label (f : String) :
    (∀ g, taskLabelOf (some g) f = some (lowerStr g)) ∧
    (∀ tt pre rest, FirstTaskSeg f tt → tt.data = pre ++ '-' :: rest →
      (∀ c ∈ pre, c ≠ '-') →
      taskLabelOf none f = some (lowerStr (String.mk rest))) ∧
    (∀ tt, FirstTaskSeg f tt → (∀ c ∈ tt.data, c ≠ '-') →
      taskLabelOf none f = none) ∧
    (NoTaskSeg f → ∀ i, FirstBoldIdx f i → 0 < i →
      taskLabelOf none f = some (lowerStr
        (if (tokensOf f).getD (i - 1) "" = "" then "task"
         else (tokensOf f).getD (i - 1) ""))) ∧
    (NoTaskSeg f → FirstBoldIdx f 0 →
      taskLabelOf none f = some (lowerStr
        (if (tokensOf f).getLastD "" = "" then "task"
         else (tokensOf f).getLastD ""))) := by
  refine ⟨fun g => rfl, ?_, ?_, ?_, ?_⟩
  · rintro tt pre rest ⟨tpre, tsuf, htok, htt, hpre⟩ hdata hnd
    simp only [taskLabelOf, htok, find?_first _ tt tsuf tpre htt hpre,
      splitAfterFirstDash_some tt pre rest hdata hnd]
  · rintro tt ⟨tpre, tsuf, htok, htt, hpre⟩ hnd
    simp only [taskLabelOf, htok, find?_first _ tt tsuf tpre htt hpre,
      splitAfterFirstDash_none tt hnd]
  · rintro hno i ⟨bpre, bt, bsuf, htok, hlen, hbt, hbpre⟩ hi
    have hfind : (tokensOf f).find? (fun t => startsWithStr (lowerStr t) "task") =
        none := List.find?_eq_none.2 (by simpa using hno)
    have hidx : (tokensOf f).findIdx? (fun t => containsCIs t "bold") = some i := by
      rw [htok, findIdx?_first _ bt bsuf bpre 0 hbt hbpre, hlen]
      simp
    simp only [taskLabelOf, hfind, hidx]
    rw [if_neg (show ¬ i = 0 by omega)]
  · rintro hno ⟨bpre, bt, bsuf, htok, hlen, hbt, hbpre⟩
    have hfind : (tokensOf f).find? (fun t => startsWithStr (lowerStr t) "task") =
        none := List.find?_eq_none.2 (by simpa using hno)
    have hidx : (tokensOf f).findIdx? (fun t => containsCIs t "bold") = some 0 := by
      rw [htok, findIdx?_first _ bt bsuf bpre 0 hbt hbpre, hlen]
    simp only [taskLabelOf, hfind, hidx, if_pos rfl]
    simp

/-- C6 witness: the derivation branches of c6_task_label at concrete
functional filenames: a forced label, a task-Rest token, a bare task token
(failure), a mid-name bold token, and a first-token bold. -/
theorem c6_task_label_witness :
    taskLabelOf (some "Motor") "x_bold.nii" = some "motor" ∧
    taskLabelOf none "x_task-Rest_bold.nii" = some "rest" ∧
    taskLabelOf none "y_task_bold.nii" = none ∧
    taskLabelOf none "a_bold.nii" = some "a" ∧
    taskLabelOf none "bold_x.nii" = some "x.nii" := by
  refine ⟨?_, ?_, ?_, ?_, ?_⟩
  · rw [(c6_task_label "x_bold.nii").1 "Motor"]; decide
  · rw [(c6_task_label "x_task-Rest_bold.nii").2.1 "task-Rest" "task".data "Rest".data
      ⟨["x"], ["bold.nii"], by decide, by decide, by decide⟩ (by decide) (by decide)]
    decide
  · exact (c6_task_label "y_task_bold.nii").2.2.1 "task"
      ⟨["y"], ["bold.nii"], by decide, by decide, by decide⟩ (by decide)
  · rw [(c6_task_label "a_bold.nii").2.2.2.1 (by unfold NoTaskSeg; decide) 1
      ⟨["a"], "bold.nii", [], by decide, by decide, by decide, by decide⟩ (by decide)]
    decide
  · rw [(c6_task_label "bold_x.nii").2.2.2.2 (by unfold NoTaskSeg; decide)
      ⟨[], "bold", ["x.nii"], by decide, by decide, by decide, by decide⟩]
    decide

lemma lookupA_append {α : Type} (l1 l2 : List (String × α)) (k : String) :
    lookupA (l1 ++ l2) k =
      match lookupA l1 k with
      | some v => some v
      | none => lookupA l2 k := by
  induction l1 with
  | nil => simp [lookupA]
  | cons a t ih =>
    rcases a with ⟨k', v⟩
    by_cases hk : k' = k <;> simp [lookupA, hk, ih]

lemma lookupA_eq_none {α : Type} (l : List (String × α)) (k : String) :
    lookupA l k = none ↔ k ∉ l.map Prod.fst := by
  induction l with
  | nil => simp [lookupA]
  | cons a t ih =>
    rcases a with ⟨k', v⟩
    by_cases hk : k' = k
    · subst hk; simp [lookupA]
    · have hk' : ¬ k = k' := fun h => hk h.symm
      simp [lookupA, hk, hk', ih]

lemma lookupA_eraseA_ne {α : Type} (l : List (String × α)) (old k : String)
    (h : k ≠ old) : lookupA (eraseA l old) k = lookupA l k := by
  induction l with
  | nil => rfl
  | cons a t ih =>
    rcases a with ⟨k', v⟩
    by_cases ho : k' = old
    · subst ho
      have hko : ¬ k' = k := fun hh => h hh.symm
      simp [eraseA, lookupA, hko]
    · by_cases hk : k' = k
      · subst hk
        simp [eraseA, lookupA, ho, h]
      · simp [eraseA, lookupA, ho, hk, ih]

lemma lookupA_eraseA_self {α : Type} (l : List (String × α)) (old : String)
    (hnd : (l.map Prod.fst).Nodup) : lookupA (eraseA l old) old = none := by
  induction l with
  | nil => rfl
  | cons a t ih =>
    rcases a with ⟨k', v⟩
    simp only [List.map_cons, List.nodup_cons] at hnd
    by_cases ho : k' = old
    · subst ho
      simp only [eraseA, if_pos rfl]
      exact (lookupA_eq_none t k').2 hnd.1
    · simp [eraseA, lookupA, ho, ih hnd.2]

/-- C8: an OLD=NEW rename with OLD absent from the functional section
leaves the mapping unchanged and processing continues; a rename whose NEW
already exists as a distinct key leaves the mapping unchanged; otherwise
the whole run-tree moves from OLD (removed) to NEW (rebound), all other
tasks keeping their trees; and the remaining pairs of the invocation are
still applied to the result. -/
theorem c8_task_rename (func : List (String × List (String × RunEntry)))
    (old new : String) (p : String × String) (pairs : List (String × String))
    (hnd : (func.map Prod.fst).Nodup) :
    (lookupA func old = none → applyRename func old new = func) ∧
    (∀ told tnew, lookupA func old = some told → lookupA func new = some tnew →
      new ≠ old → applyRename func old new = func) ∧
    (∀ tree, lookupA func old = some tree → lookupA func new = none →
      lookupA (applyRename func old new) new = some tree ∧
      lookupA (applyRename func old new) old = none ∧
      ∀ k, k ≠ old → k ≠ new →
        lookupA (applyRename func old new) k = lookupA func k) ∧
    (∀ tree, lookupA func old = some tree → new = old →
      lookupA (applyRename func old new) new = some tree ∧
      ∀ k, k ≠ old → lookupA (applyRename func old new) k = lookupA func k) ∧
    (applyRenames func (p :: pairs) = applyRenames (applyRename func p.1 p.2) pairs) := by
  refine ⟨?_, ?_, ?_, ?_, ?_⟩
  · intro h; simp [applyRename, h]
  · intro told tnew hold hnew _; simp [applyRename, hold, hnew]
  · intro tree hold hnew
    have hno : new ≠ old := by
      intro h; rw [h, hold] at hnew; exact absurd hnew (by simp)
    have happ : applyRename func old new = eraseA func old ++ [(new, tree)] := by
      simp [applyRename, hold, hnew]
    refine ⟨?_, ?_, ?_⟩
    · rw [happ, lookupA_append, lookupA_eraseA_ne func old new hno, hnew]
      simp [lookupA]
    · rw [happ, lookupA_append, lookupA_eraseA_self func old hnd]
      simp [lookupA, hno]
    · intro k hko hkn
      rw [happ, lookupA_append, lookupA_eraseA_ne func old k hko]
      have hnk : ¬ new = k := fun h => hkn h.symm
      cases hl : lookupA func k
      · simp [lookupA, hnk]
      · simp
  · intro tree hold hno
    subst hno
    have happ : applyRename func new new = func := by simp [applyRename, hold]
    rw [happ]
    exact ⟨hold, fun k _ => rfl⟩
  · rcases p with ⟨po, pn⟩; rfl

/-- C8 witness: the four rename outcomes of c8_task_rename on a concrete
two-task functional section. -/
theorem c8_task_rename_witness :
    applyRename [("rest", [("run-01", ⟨"s1", none⟩)]),
      ("motor", [("run-01", ⟨"s2", none⟩)])] "absent" "x" =
      [("rest", [("run-01", ⟨"s1", none⟩)]), ("motor", [("run-01", ⟨"s2", none⟩)])] ∧
    applyRename [("rest", [("run-01", ⟨"s1", none⟩)]),
      ("motor", [("run-01", ⟨"s2", none⟩)])] "rest" "motor" =
      [("rest", [("run-01", ⟨"s1", none⟩)]), ("motor", [("run-01", ⟨"s2", none⟩)])] ∧
    lookupA (applyRename [("rest", [("run-01", ⟨"s1", none⟩)]),
      ("motor", [("run-01", ⟨"s2", none⟩)])] "rest" "go") "go" =
      some [("run-01", ⟨"s1", none⟩)] ∧
    lookupA (applyRename [("rest", [("run-01", ⟨"s1", none⟩)]),
      ("motor", [("run-01", ⟨"s2", none⟩)])] "rest" "go") "rest" = none ∧
    applyRenames [("rest", [("run-01", ⟨"s1", none⟩)]),
      ("motor", [("run-01", ⟨"s2", none⟩)])] [("rest", "go"), ("a", "b")] =
      applyRenames (applyRename [("rest", [("run-01", ⟨"s1", none⟩)]),
        ("motor", [("run-01", ⟨"s2", none⟩)])] "rest" "go") [("a", "b")] := by
  refine ⟨?_, ?_, ?_, ?_, ?_⟩
  · exact (c8_task_rename _ "absent" "x" ("a", "b") [] (by decide)).1 (by decide)
  · exact (c8_task_rename _ "rest" "motor" ("a", "b") [] (by decide)).2.1
      [("run-01", ⟨"s1", none⟩)] [("run-01", ⟨"s2", none⟩)] (by decide) (by decide)
      (by decide)
  · exact ((c8_task_rename _ "rest" "go" ("a", "b") [] (by decide)).2.2.1
      [("run-01", ⟨"s1", none⟩)] (by decide) (by decide)).1
  · exact ((c8_task_rename _ "rest" "go" ("a", "b") [] (by decide)).2.2.1
      [("run-01", ⟨"s1", none⟩)] (by decide) (by decide)).2.1
  · exact (c8_task_rename _ "x" "y" ("rest", "go") [("a", "b")] (by decide)).2.2.2.2

lemma lookupA_modA_self {α : Type} (l : List (String × α)) (k : String) (d : α)
    (f : α → α) : lookupA (modA l k d f) k = some (f ((lookupA l k).getD d)) := by
  induction l with
  | nil => simp [modA, lookupA]
  | cons a t ih =>
    rcases a with ⟨k', v⟩
    by_cases hk : k' = k
    · subst hk; simp [modA, lookupA]
    · simp [modA, lookupA, hk, ih]

lemma lookupA_setA_self {α : Type} (l : List (String × α)) (k : String) (v : α) :
    lookupA (setA l k v) k = some v := by
  induction l with
  | nil => simp [setA, lookupA]
  | cons a t ih =>
    rcases a with ⟨k', v'⟩
    by_cases hk : k' = k
    · subst hk; simp [setA, lookupA]
    · simp [setA, lookupA, hk, ih]

lemma catFold_append (force : Option String) (l1 : List String) :
    ∀ (l2 : List String) (st : CatState),
      catFold force (l1 ++ l2) st =
        match catFold force l1 st with
        | none => none
        | some st' => catFold force l2 st' := by
  induction l1 with
  | nil => intro l2 st; rfl
  | cons a t ih =>
    intro l2 st
    simp only [List.cons_append, catFold]
    cases catStep force st a
    · rfl
    · exact ih l2 _

lemma catStep_keep (force : Option String) (x : String)
    (hf : funcBranch x = false) (hs : sbrefReach x = false) (st : CatState) :
    ∃ st', catStep force st x = some st' ∧ st'.pending = st.pending ∧
      st'.rc = st.rc := by
  by_cases h1 : skipMatch x = true
  · exact ⟨st, catStep_skip force st x h1, rfl, rfl⟩
  have h1' : skipMatch x = false := by simpa using h1
  by_cases h2 : sbrefMatch x = true
  · rw [sbrefReach, h1', h2] at hs; simp at hs
  have h2' : sbrefMatch x = false := by simpa using h2
  by_cases h3 : anatMatch x = true
  · exact ⟨_, catStep_anat force st x h1' h2' h3, rfl, rfl⟩
  have h3' : anatMatch x = false := by simpa using h3
  by_cases h4 : boldMatch x = true
  · rw [funcBranch, h1', h2', h3', h4] at hf; simp at hf
  have h4' : boldMatch x = false := by simpa using h4
  by_cases h5 : fmapMatch x = true
  · exact ⟨_, catStep_fmap force st x h1' h2' h3' h4' h5, rfl, rfl⟩
  have h5' : fmapMatch x = false := by simpa using h5
  exact ⟨st, catStep_norule force st x h1' h2' h3' h4' h5', rfl, rfl⟩

lemma catFold_keep (force : Option String) (mid : List String) :
    ∀ st : CatState, (∀ x ∈ mid, funcBranch x = false ∧ sbrefReach x = false) →
      ∃ st', catFold force mid st = some st' ∧ st'.pending = st.pending ∧
        st'.rc = st.rc := by
  induction mid with
  | nil => intro st _; exact ⟨st, rfl, rfl, rfl⟩
  | cons a t ih =>
    intro st hmid
    rcases catStep_keep force a (hmid a (List.mem_cons_self a t)).1
      (hmid a (List.mem_cons_self a t)).2 st with ⟨st1, hstep, hp, hr⟩
    rcases ih st1 (fun x hx => hmid x (List.mem_cons_of_mem a hx)) with
      ⟨st2, hfold, hp2, hr2⟩
    refine ⟨st2, ?_, hp2.trans hp, hr2.trans hr⟩
    simp only [catFold, hstep]
    exact hfold

lemma catStep_meq (force : Option String) (x : String) (hf : funcBranch x = false) :
    ∀ st₁ st₂ : CatState, st₁.m = st₂.m →
      ∃ st₁' st₂', catStep force st₁ x = some st₁' ∧ catStep force st₂ x = some st₂' ∧
        st₁'.m = st₂'.m := by
  intro st₁ st₂ hm
  by_cases h1 : skipMatch x = true
  · exact ⟨st₁, st₂, catStep_skip force st₁ x h1, catStep_skip force st₂ x h1, hm⟩
  have h1' : skipMatch x = false := by simpa using h1
  by_cases h2 : sbrefMatch x = true
  · exact ⟨_, _, catStep_sbref force st₁ x h1' h2, catStep_sbref force st₂ x h1' h2, hm⟩
  have h2' : sbrefMatch x = false := by simpa using h2
  by_cases h3 : anatMatch x = true
  · refine ⟨_, _, catStep_anat force st₁ x h1' h2' h3,
      catStep_anat force st₂ x h1' h2' h3, ?_⟩
    simp [hm]
  have h3' : anatMatch x = false := by simpa using h3
  by_cases h4 : boldMatch x = true
  · rw [funcBranch, h1', h2', h3', h4] at hf; simp at hf
  have h4' : boldMatch x = false := by simpa using h4
  by_cases h5 : fmapMatch x = true
  · refine ⟨_, _, catStep_fmap force st₁ x h1' h2' h3' h4' h5,
      catStep_fmap force st₂ x h1' h2' h3' h4' h5, ?_⟩
    simp [hm]
  have h5' : fmapMatch x = false := by simpa using h5
  exact ⟨st₁, st₂, catStep_norule force st₁ x h1' h2' h3' h4' h5',
    catStep_norule force st₂ x h1' h2' h3' h4' h5', hm⟩

lemma catFold_meq (force : Option String) (suf : List String) :
    ∀ st₁ st₂ : CatState, (∀ x ∈ suf, funcBranch x = false) → st₁.m = st₂.m →
      (catFold force suf st₁).map CatState.m =
        (catFold force suf st₂).map CatState.m := by
  induction suf with
  | nil => intro st₁ st₂ _ hm; simpa [catFold] using hm
  | cons a t ih =>
    intro st₁ st₂ hsuf hm
    rcases catStep_meq force a (hsuf a (List.mem_cons_self a t)) st₁ st₂ hm with
      ⟨st₁', st₂', h1, h2, hm'⟩
    simp only [catFold, h1, h2]
    exact ih st₁' st₂' (fun x hx => hsuf x (List.mem_cons_of_mem a hx)) hm'

/-- C9: the claim says a pending paired reference is attached as the sbref
of the run created by the next functional match.  When a second SBRef
arrives before that match, it overwrites the first: with scan order
a_SBRef.nii, b_SBRef.nii, c_bold.nii the run of c_bold carries b_SBRef,
and a_SBRef, whose next functional match is that same run, appears
nowhere. -/
theorem c9_counterexample :
    sbrefMatch "a_SBRef.nii" = true ∧ skipMatch "a_SBRef.nii" = false ∧
    categorise ["a_SBRef.nii", "b_SBRef.nii", "c_bold.nii"] none =
      some ⟨[], [("c", [("run-01", ⟨"c_bold", some "b_SBRef"⟩)])], []⟩ := by
  refine ⟨by decide, by decide, by decide⟩

/-- C9 (amended): an SBRef file is never classified on its own: it becomes
the single pending reference, overwriting any previously pending one; the
next functional match attaches the most recently seen SBRef stem as its
sbref entry and clears the pending state; and an SBRef never followed by a
functional match leaves the final mapping exactly as if the SBRef file had
not been scanned, so its stem appears nowhere. -/
theorem c9_sbref_attachment (force : Option String) :
    (∀ (st : CatState) (f : String), sbrefReach f = true →
      catStep force st f = some { st with pending := some (series_id f, f) }) ∧
    (∀ (pre mid : List String) (f g t : String) (st : CatState),
      catFold force pre initCatState = some st →
      sbrefReach f = true →
      (∀ x ∈ mid, funcBranch x = false ∧ sbrefReach x = false) →
      funcBranch g = true → taskLabelOf force g = some t →
      ∃ st' tr, catFold force (pre ++ f :: (mid ++ [g])) initCatState = some st' ∧
        st'.pending = none ∧
        lookupA st'.m.func t = some tr ∧
        lookupA tr (runLabel (st.rc t + 1)) =
          some ⟨series_id g, some (series_id f)⟩) ∧
    (∀ (pre suf : List String) (f : String), sbrefReach f = true →
      (∀ x ∈ suf, funcBranch x = false) →
      categorise (pre ++ f :: suf) force = categorise (pre ++ suf) force) := by
  have hsb : ∀ f : String, sbrefReach f = true →
      skipMatch f = false ∧ sbrefMatch f = true := by
    intro f hf
    rw [sbrefReach, Bool.and_eq_true, Bool.not_eq_true'] at hf
    exact hf
  have hfb : ∀ g : String, funcBranch g = true →
      skipMatch g = false ∧ sbrefMatch g = false ∧ anatMatch g = false ∧
        boldMatch g = true := by
    intro g hg
    rw [funcBranch, Bool.and_eq_true, Bool.and_eq_true, Bool.and_eq_true,
      Bool.not_eq_true', Bool.not_eq_true', Bool.not_eq_true'] at hg
    exact ⟨hg.1.1.1, hg.1.1.2, hg.1.2, hg.2⟩
  refine ⟨?_, ?_, ?_⟩
  · intro st f hf
    exact catStep_sbref force st f (hsb f hf).1 (hsb f hf).2
  · intro pre mid f g t st hpre hf hmid hg ht
    rw [catFold_append force pre (f :: (mid ++ [g])) initCatState, hpre]
    simp only [catFold, catStep_sbref force st f (hsb f hf).1 (hsb f hf).2]
    rcases catFold_keep force mid { st with pending := some (series_id f, f) } hmid
      with ⟨st2, hfold, hp2, hr2⟩
    rw [catFold_append force mid [g] _, hfold]
    rcases hfb g hg with ⟨hg1, hg2, hg3, hg4⟩
    simp only [catFold, catStep_func_some force st2 g t hg1 hg2 hg3 hg4 ht]
    refine ⟨_, _, rfl, rfl, lookupA_modA_self _ t _ _, ?_⟩
    rw [hp2, hr2]
    simp only [Option.map_some']
    exact lookupA_setA_self _ _ _
  · intro pre suf f hf hsuf
    unfold categorise
    rw [catFold_append force pre (f :: suf) initCatState,
      catFold_append force pre suf initCatState]
    cases hpre : catFold force pre initCatState
    · rfl
    · rename_i st
      simp only [catFold, catStep_sbref force st f (hsb f hf).1 (hsb f hf).2]
      exact catFold_meq force suf _ st hsuf rfl

/-- C9 witness: concrete instances of the three clauses of
c9_sbref_attachment: the overwrite step, the attachment of the most recent
SBRef across an intervening anatomical file, and the dropped SBRef leaving
the mapping unchanged. -/
theorem c9_sbref_attachment_witness :
    catStep none initCatState "a_SBRef.nii" =
      some { initCatState with pending := some ("a_SBRef", "a_SBRef.nii") } ∧
    (∃ st' tr, catFold none ["a_SBRef.nii", "x_T1.nii", "c_bold.nii"] initCatState =
        some st' ∧ st'.pending = none ∧
        lookupA st'.m.func "c" = some tr ∧
        lookupA tr "run-01" = some ⟨"c_bold", some "a_SBRef"⟩) ∧
    categorise ["q_T1.nii", "a_SBRef.nii", "z_gre.nii"] none =
      categorise ["q_T1.nii", "z_gre.nii"] none := by
  refine ⟨?_, ?_, ?_⟩
  · have h := (c9_sbref_attachment none).1 initCatState "a_SBRef.nii" (by decide)
    rw [h]
    have hs : series_id "a_SBRef.nii" = "a_SBRef" := by decide
    rw [hs]
  · have h := (c9_sbref_attachment none).2.1 [] ["x_T1.nii"] "a_SBRef.nii"
      "c_bold.nii" "c" initCatState rfl (by decide) (by decide) (by decide) (by decide)
    rcases h with ⟨st', tr, h1, h2, h3, h4⟩
    rw [show series_id "c_bold.nii" = "c_bold" by decide,
      show series_id "a_SBRef.nii" = "a_SBRef" by decide] at h4
    exact ⟨st', tr, h1, h2, h3, h4⟩
  · exact (c9_sbref_attachment none).2.2 ["q_T1.nii"] ["z_gre.nii"] "a_SBRef.nii"
      (by decide) (by decide)

lemma sep_not_digit (c : Char) (h : isSepC c = true) : isDigitC c = false := by
  rw [isSepC, decide_eq_true_eq] at h
  rcases h with h | h <;> subst h <;> decide

lemma digit_not_sep (c : Char) (h : isDigitC c = true) : isSepC c = false := by
  cases hs : isSepC c
  · rfl
  · have := sep_not_digit c hs
    rw [h] at this
    exact absurd this (by simp)

lemma digit_word (c : Char) (h : isDigitC c = true) : isWordC c = true := by
  simp [isWordC, isAlnumC, h]

lemma runCI_shape (rn : List Char) (h : RunCI rn) :
    ∃ a b c, rn = [a, b, c] ∧ lc a = 'r' ∧ lc b = 'u' ∧ lc c = 'n' := by
  rcases rn with _ | ⟨a, rn⟩
  · simp [RunCI, lcs] at h
  rcases rn with _ | ⟨b, rn⟩
  · simp [RunCI, lcs] at h
  rcases rn with _ | ⟨c, rn⟩
  · simp [RunCI, lcs] at h
  rcases rn with _ | ⟨d, rn⟩
  · simp only [RunCI, lcs, List.map_cons, List.map_nil, List.cons.injEq,
      and_true] at h
    exact ⟨a, b, c, rfl, h.1, h.2.1, h.2.2⟩
  · simp [RunCI, lcs] at h

lemma dropCI_sound (pat : List Char) : ∀ s r, dropCI pat s = some r →
    ∃ pref, s = pref ++ r ∧ lcs pref = lcs pat := by
  induction pat with
  | nil =>
    intro s r h
    simp only [dropCI, Option.some.injEq] at h
    exact ⟨[], by rw [h]; rfl, rfl⟩
  | cons p ps ih =>
    intro s r h
    rcases s with _ | ⟨c, cs⟩
    · simp [dropCI] at h
    · by_cases hc : lc c = lc p
      · rw [dropCI, if_pos hc] at h
        rcases ih cs r h with ⟨pref, h1, h2⟩
        refine ⟨c :: pref, by rw [h1]; rfl, ?_⟩
        simp only [lcs, List.map_cons]
        rw [hc]
        exact congrArg _ h2
      · rw [dropCI, if_neg hc] at h
        exact absurd h (by simp)

lemma dropCI_complete (pat : List Char) : ∀ (pref r : List Char),
    lcs pref = lcs pat → dropCI pat (pref ++ r) = some r := by
  induction pat with
  | nil =>
    intro pref r h
    have : pref = [] := by simpa [lcs] using h
    subst this
    rfl
  | cons p ps ih =>
    intro pref r h
    rcases pref with _ | ⟨c, cs⟩
    · simp [lcs] at h
    · simp only [lcs, List.map_cons, List.cons.injEq] at h
      simp only [List.cons_append, dropCI, if_pos h.1]
      exact ih cs r h.2

lemma digitsToNat_one (d : Char) : digitsToNat [d] = dval d := by
  simp [digitsToNat]

lemma digitsToNat_two (d1 d2 : Char) : digitsToNat [d1, d2] = 10 * dval d1 + dval d2 := by
  simp [digitsToNat]

lemma runTailNum_complete (sep ds : List Char) (hsep : SepOpt sep)
    (hds : DigitsOk ds) : runTailNum (sep ++ ds) = some (digitsToNat ds) := by
  rcases hds with ⟨hne, hlen, hdig⟩
  rcases hsep with rfl | ⟨c, rfl, hc⟩
  · rcases ds with _ | ⟨d1, _ | ⟨d2, _ | ⟨d3, t⟩⟩⟩
    · exact absurd rfl hne
    · simp [runTailNum, hdig d1 (by simp), digitsToNat_one]
    · have h1 := hdig d1 (by simp)
      have h2 := hdig d2 (by simp)
      simp [runTailNum, digit_not_sep d1 h1, h1, h2, digitsToNat_two]
    · simp at hlen
  · rcases ds with _ | ⟨d1, _ | ⟨d2, _ | ⟨d3, t⟩⟩⟩
    · exact absurd rfl hne
    · simp [runTailNum, hc, hdig d1 (by simp), digitsToNat_one]
    · simp [runTailNum, hc, hdig d1 (by simp), hdig d2 (by simp), digitsToNat_two]
    · simp at hlen

lemma runTailNum_sound (r : List Char) (n : Nat) (h : runTailNum r = some n) :
    ∃ sep ds, r = sep ++ ds ∧ SepOpt sep ∧ DigitsOk ds ∧ n = digitsToNat ds := by
  rcases r with _ | ⟨a, _ | ⟨b, _ | ⟨c, _ | ⟨d, t⟩⟩⟩⟩
  · simp [runTailNum] at h
  · by_cases ha : isDigitC a = true
    · rw [runTailNum, if_pos ha] at h
      refine ⟨[], [a], rfl, Or.inl rfl, ⟨by simp, by simp, by simp [ha]⟩, ?_⟩
      rw [digitsToNat_one]
      exact (Option.some.inj h).symm
    · rw [runTailNum, if_neg ha] at h
      exact absurd h (by simp)
  · by_cases hab : isSepC a = true ∧ isDigitC b = true
    · rw [runTailNum, if_pos (by simp [hab.1, hab.2])] at h
      refine ⟨[a], [b], rfl, Or.inr ⟨a, rfl, hab.1⟩,
        ⟨by simp, by simp, by simp [hab.2]⟩, ?_⟩
      rw [digitsToNat_one]
      exact (Option.some.inj h).symm
    · have hg1 : (isSepC a && isDigitC b) = false := by
        cases hsa : isSepC a <;> cases hdb : isDigitC b <;> simp_all
      by_cases hab2 : isDigitC a = true ∧ isDigitC b = true
      · rw [runTailNum, if_neg (by simp [hg1]), if_pos (by simp [hab2.1, hab2.2])] at h
        refine ⟨[], [a, b], rfl, Or.inl rfl,
          ⟨by simp, by simp, by
            intro x hx
            simp only [List.mem_cons, List.not_mem_nil, or_false] at hx
            rcases hx with rfl | rfl <;> simp_all⟩, ?_⟩
        rw [digitsToNat_two]
        exact (Option.some.inj h).symm
      · have hg2 : (isDigitC a && isDigitC b) = false := by
          cases hsa : isDigitC a <;> cases hdb : isDigitC b <;> simp_all
        rw [runTailNum, if_neg (by simp [hg1]), if_neg (by simp [hg2])] at h
        exact absurd h (by simp)
  · by_cases habc : isSepC a = true ∧ isDigitC b = true ∧ isDigitC c = true
    · rw [runTailNum, if_pos (by simp [habc.1, habc.2.1, habc.2.2])] at h
      refine ⟨[a], [b, c], rfl, Or.inr ⟨a, rfl, habc.1⟩,
        ⟨by simp, by simp, by
          intro x hx
          simp only [List.mem_cons, List.not_mem_nil, or_false] at hx
          rcases hx with rfl | rfl <;> simp_all⟩, ?_⟩
      rw [digitsToNat_two]
      exact (Option.some.inj h).symm
    · have hg : (isSepC a && (isDigitC b && isDigitC c)) = false := by
        cases h1 : isSepC a <;> cases h2 : isDigitC b <;> cases h3 : isDigitC c <;>
          simp_all
      rw [runTailNum, if_neg (by simp only [Bool.and_assoc]; simp [hg])] at h
      exact absurd h (by simp)
  · simp [runTailNum] at h

lemma boundaryW_iff (l : List Char) : boundaryW l = true ↔ WordBoundaryAt l := by
  cases l with
  | nil => simp [boundaryW, WordBoundaryAt]
  | cons c t => simp [boundaryW, WordBoundaryAt]

lemma nonword_not_digit (c : Char) (h : isWordC c = false) : isDigitC c = false := by
  cases hd : isDigitC c
  · rfl
  · rw [digit_word c hd] at h
    exact absurd h (by simp)

lemma runEndHere_sound (s : List Char) (n : Nat) (h : runEndHere s = some n) :
    ∃ rn sep ds, s = rn ++ (sep ++ ds) ∧ RunCI rn ∧ SepOpt sep ∧ DigitsOk ds ∧
      n = digitsToNat ds := by
  unfold runEndHere at h
  cases hd : dropCI "run".data s with
  | none => rw [hd] at h; exact absurd h (by simp)
  | some r =>
    rw [hd] at h
    rcases dropCI_sound _ s r hd with ⟨pref, hs, hl⟩
    rcases runTailNum_sound r n h with ⟨sep, ds, hr, hsep, hds, hn⟩
    refine ⟨pref, sep, ds, by rw [hs, hr], ?_, hsep, hds, hn⟩
    rw [RunCI, hl]
    decide

lemma runEndHere_complete (rn sep ds : List Char) (hrn : RunCI rn)
    (hsep : SepOpt sep) (hds : DigitsOk ds) :
    runEndHere (rn ++ (sep ++ ds)) = some (digitsToNat ds) := by
  unfold runEndHere
  rw [dropCI_complete "run".data rn (sep ++ ds) (by rw [hrn]; decide)]
  exact runTailNum_complete sep ds hsep hds

lemma digPart_sound (s : List Char) (n : Nat) (h : digPart s = some n) :
    ∃ ds rest, s = ds ++ rest ∧ DigitsOk ds ∧ WordBoundaryAt rest ∧
      n = digitsToNat ds := by
  rcases s with _ | ⟨b, _ | ⟨c, r⟩⟩
  · simp [digPart] at h
  · simp only [digPart, Option.none_orElse] at h
    by_cases hg : (isDigitC b && boundaryW []) = true
    · rw [if_pos hg] at h
      simp only [Bool.and_eq_true] at hg
      exact ⟨[b], [], by simp, ⟨by simp, by simp, by simp [hg.1]⟩, trivial,
        by rw [digitsToNat_one]; exact (Option.some.inj h).symm⟩
    · rw [if_neg hg] at h
      exact absurd h (by simp)
  · by_cases hg1 : (isDigitC b && isDigitC c && boundaryW r) = true
    · simp only [digPart, if_pos hg1, Option.some_orElse] at h
      simp only [Bool.and_eq_true] at hg1
      refine ⟨[b, c], r, rfl, ⟨by simp, by simp, ?_⟩, (boundaryW_iff _).1 hg1.2, ?_⟩
      · intro x hx
        simp only [List.mem_cons, List.not_mem_nil, or_false] at hx
        rcases hx with rfl | rfl
        · exact hg1.1.1
        · exact hg1.1.2
      · rw [digitsToNat_two]
        exact (Option.some.inj h).symm
    · simp only [digPart, if_neg hg1, Option.none_orElse] at h
      by_cases hg2 : (isDigitC b && boundaryW (c :: r)) = true
      · rw [if_pos hg2] at h
        simp only [Bool.and_eq_true] at hg2
        exact ⟨[b], c :: r, rfl, ⟨by simp, by simp, by simp [hg2.1]⟩,
          (boundaryW_iff _).1 hg2.2,
          by rw [digitsToNat_one]; exact (Option.some.inj h).symm⟩
      · rw [if_neg hg2] at h
        exact absurd h (by simp)

lemma digPart_complete (ds rest : List Char) (hds : DigitsOk ds)
    (hb : WordBoundaryAt rest) : digPart (ds ++ rest) = some (digitsToNat ds) := by
  rcases hds with ⟨hne, hlen, hdig⟩
  rcases ds with _ | ⟨d1, _ | ⟨d2, _ | _⟩⟩
  · exact absurd rfl hne
  · have h1 := hdig d1 (by simp)
    rcases rest with _ | ⟨c, t⟩
    · simp [digPart, h1, boundaryW, digitsToNat_one]
    · have hw : isWordC c = false := hb
      have hc : isDigitC c = false := nonword_not_digit c hw
      simp [digPart, h1, hc, boundaryW, hw, digitsToNat_one]
  · have h1 := hdig d1 (by simp)
    have h2 := hdig d2 (by simp)
    have hbw : boundaryW rest = true := (boundaryW_iff _).2 hb
    simp [digPart, h1, h2, hbw, digitsToNat_two]
  · simp at hlen

lemma runAnyTail_sound (r : List Char) (n : Nat) (h : runAnyTail r = some n) :
    ∃ sep ds rest, r = sep ++ (ds ++ rest) ∧ SepOpt sep ∧ DigitsOk ds ∧
      WordBoundaryAt rest ∧ n = digitsToNat ds := by
  rcases r with _ | ⟨a, r'⟩
  · simp [runAnyTail] at h
  · by_cases ha : isSepC a = true
    · rw [runAnyTail, if_pos ha] at h
      rcases digPart_sound r' n h with ⟨ds, rest, hr, hds, hb, hn⟩
      exact ⟨[a], ds, rest, by rw [hr]; rfl, Or.inr ⟨a, rfl, ha⟩, hds, hb, hn⟩
    · rw [runAnyTail, if_neg ha] at h
      rcases digPart_sound (a :: r') n h with ⟨ds, rest, hr, hds, hb, hn⟩
      exact ⟨[], ds, rest, by simpa using hr, Or.inl rfl, hds, hb, hn⟩

lemma runAnyTail_complete (sep ds rest : List Char) (hsep : SepOpt sep)
    (hds : DigitsOk ds) (hb : WordBoundaryAt rest) :
    runAnyTail (sep ++ (ds ++ rest)) = some (digitsToNat ds) := by
  rcases hsep with rfl | ⟨c, rfl, hc⟩
  · obtain ⟨d, ds', rfl⟩ : ∃ d ds', ds = d :: ds' := by
      rcases ds with _ | ⟨d, ds'⟩
      · exact absurd rfl hds.1
      · exact ⟨d, ds', rfl⟩
    have hd := hds.2.2 d (by simp)
    rw [show ([] : List Char) ++ ((d :: ds') ++ rest) = d :: (ds' ++ rest) by simp]
    rw [runAnyTail, if_neg (by simp [digit_not_sep d hd])]
    exact digPart_complete (d :: ds') rest hds hb
  · rw [show [c] ++ (ds ++ rest) = c :: (ds ++ rest) by simp]
    rw [runAnyTail, if_pos hc]
    exact digPart_complete ds rest hds hb

lemma runAnyHere_sound (s : List Char) (n : Nat) (h : runAnyHere s = some n) :
    ∃ rn sep ds rest, s = rn ++ (sep ++ (ds ++ rest)) ∧ RunCI rn ∧ SepOpt sep ∧
      DigitsOk ds ∧ WordBoundaryAt rest ∧ n = digitsToNat ds := by
  unfold runAnyHere at h
  cases hd : dropCI "run".data s with
  | none => rw [hd] at h; exact absurd h (by simp)
  | some r =>
    rw [hd] at h
    rcases dropCI_sound _ s r hd with ⟨pref, hs, hl⟩
    rcases runAnyTail_sound r n h with ⟨sep, ds, rest, hr, hsep, hds, hb, hn⟩
    refine ⟨pref, sep, ds, rest, by rw [hs, hr], ?_, hsep, hds, hb, hn⟩
    rw [RunCI, hl]
    decide

lemma runAnyHere_complete (rn sep ds rest : List Char) (hrn : RunCI rn)
    (hsep : SepOpt sep) (hds : DigitsOk ds) (hb : WordBoundaryAt rest) :
    runAnyHere (rn ++ (sep ++ (ds ++ rest))) = some (digitsToNat ds) := by
  unfold runAnyHere
  rw [dropCI_complete "run".data rn (sep ++ (ds ++ rest)) (by rw [hrn]; decide)]
  exact runAnyTail_complete sep ds rest hsep hds hb

lemma digitsOk_shape (ds : List Char) (h : DigitsOk ds) :
    (∃ d, ds = [d]) ∨ (∃ d1 d2, ds = [d1, d2]) := by
  rcases ds with _ | ⟨d1, _ | ⟨d2, _ | _⟩⟩
  · exact absurd rfl h.1
  · exact Or.inl ⟨d1, rfl⟩
  · exact Or.inr ⟨d1, d2, rfl⟩
  · have := h.2.1; simp at this

lemma ds_unique (ds rest ds' rest' : List Char) (heq : ds ++ rest = ds' ++ rest')
    (hds : DigitsOk ds) (hds' : DigitsOk ds') (hb : WordBoundaryAt rest)
    (hb' : WordBoundaryAt rest') : ds = ds' := by
  rcases digitsOk_shape ds hds with ⟨d, rfl⟩ | ⟨d1, d2, rfl⟩ <;>
    rcases digitsOk_shape ds' hds' with ⟨e, rfl⟩ | ⟨e1, e2, rfl⟩
  · simp only [List.cons_append, List.nil_append, List.cons.injEq] at heq
    rw [heq.1]
  · simp only [List.cons_append, List.nil_append, List.cons.injEq] at heq
    obtain ⟨rfl, hrest⟩ := heq
    subst hrest
    have hw : isWordC e2 = false := hb
    have := hds'.2.2 e2 (by simp)
    rw [digit_word e2 this] at hw
    exact absurd hw (by simp)
  · simp only [List.cons_append, List.nil_append, List.cons.injEq] at heq
    obtain ⟨rfl, hrest⟩ := heq
    have hrest' : rest' = d2 :: rest := hrest.symm
    subst hrest'
    have hw : isWordC d2 = false := hb'
    have := hds.2.2 d2 (by simp)
    rw [digit_word d2 this] at hw
    exact absurd hw (by simp)
  · simp only [List.cons_append, List.nil_append, List.cons.injEq] at heq
    rw [heq.1, heq.2.1]

lemma tok_tail_unique (rn sep ds rest rn' sep' ds' rest' : List Char)
    (heq : rn ++ (sep ++ (ds ++ rest)) = rn' ++ (sep' ++ (ds' ++ rest')))
    (hrn : RunCI rn) (hrn' : RunCI rn') (hsep : SepOpt sep) (hsep' : SepOpt sep')
    (hds : DigitsOk ds) (hds' : DigitsOk ds') (hb : WordBoundaryAt rest)
    (hb' : WordBoundaryAt rest') : ds = ds' := by
  obtain ⟨a, b, c, rfl, -, -, -⟩ := runCI_shape rn hrn
  obtain ⟨a', b', c', rfl, -, -, -⟩ := runCI_shape rn' hrn'
  simp only [List.cons_append, List.nil_append, List.cons.injEq] at heq
  obtain ⟨-, -, -, heq⟩ := heq
  rcases hsep with rfl | ⟨e, rfl, he⟩ <;> rcases hsep' with rfl | ⟨e', rfl, he'⟩
  · exact ds_unique ds rest ds' rest' (by simpa using heq) hds hds' hb hb'
  · obtain ⟨d, ds0, rfl⟩ : ∃ d ds0, ds = d :: ds0 := by
      rcases ds with _ | ⟨d, ds0⟩
      · exact absurd rfl hds.1
      · exact ⟨d, ds0, rfl⟩
    simp only [List.nil_append, List.cons_append, List.cons.injEq] at heq
    obtain ⟨rfl, -⟩ := heq
    have := hds.2.2 d (by simp)
    rw [sep_not_digit d he'] at this
    exact absurd this (by simp)
  · obtain ⟨d, ds0, rfl⟩ : ∃ d ds0, ds' = d :: ds0 := by
      rcases ds' with _ | ⟨d, ds0⟩
      · exact absurd rfl hds'.1
      · exact ⟨d, ds0, rfl⟩
    simp only [List.nil_append, List.cons_append, List.cons.injEq] at heq
    obtain ⟨heq1, -⟩ := heq
    have := hds'.2.2 d (by simp)
    rw [← heq1, sep_not_digit e he] at this
    exact absurd this (by simp)
  · simp only [List.cons_append, List.nil_append, List.cons.injEq] at heq
    exact ds_unique ds rest ds' rest' heq.2 hds hds' hb hb'

lemma sepOpt_len (sep : List Char) (h : SepOpt sep) : sep.length ≤ 1 := by
  rcases h with rfl | ⟨c, rfl, _⟩ <;> simp

lemma digitsOk_len (ds : List Char) (h : DigitsOk ds) :
    1 ≤ ds.length ∧ ds.length ≤ 2 := by
  refine ⟨?_, h.2.1⟩
  rcases ds with _ | ⟨d, t⟩
  · exact absurd rfl h.1
  · simp

lemma endTok_shift_false (s pre pre' sep ds sep' ds' : List Char)
    (a b c a' b' c' : Char)
    (hs : s = pre ++ ([a, b, c] ++ (sep ++ ds)))
    (hs' : s = pre' ++ ([a', b', c'] ++ (sep' ++ ds')))
    (hb2 : lc b = 'u') (hc : lc c = 'n') (ha' : lc a' = 'r')
    (hsepl : sep.length ≤ 1) (hdsl : 1 ≤ ds.length ∧ ds.length ≤ 2)
    (hsepl' : sep'.length ≤ 1) (hdsl' : 1 ≤ ds'.length ∧ ds'.length ≤ 2)
    (hlt : pre.length < pre'.length) : False := by
  have hd1 : s.drop pre.length = [a, b, c] ++ (sep ++ ds) := by
    rw [hs]; exact List.drop_left _ _
  have hd2 : s.drop pre'.length = [a', b', c'] ++ (sep' ++ ds') := by
    rw [hs']; exact List.drop_left _ _
  have hlen1 : s.length = pre.length + (3 + (sep.length + ds.length)) := by
    rw [hs]
    simp only [List.length_append, List.length_cons, List.length_nil]
  have hlen2 : s.length = pre'.length + (3 + (sep'.length + ds'.length)) := by
    rw [hs']
    simp only [List.length_append, List.length_cons, List.length_nil]
  have hdcase : pre'.length = pre.length + 1 ∨ pre'.length = pre.length + 2 := by
    omega
  rcases hdcase with hcase | hcase
  · have hstep : s.drop pre'.length = b :: (c :: (sep ++ ds)) := by
      rw [hcase, ← List.drop_drop, hd1]
      rfl
    rw [hd2] at hstep
    simp only [List.cons_append, List.nil_append, List.cons.injEq] at hstep
    have : lc a' = lc b := by rw [hstep.1]
    rw [ha', hb2] at this
    exact absurd this (by decide)
  · have hstep : s.drop pre'.length = c :: (sep ++ ds) := by
      rw [hcase, ← List.drop_drop, hd1]
      rfl
    rw [hd2] at hstep
    simp only [List.cons_append, List.nil_append, List.cons.injEq] at hstep
    have : lc a' = lc c := by rw [hstep.1]
    rw [ha', hc] at this
    exact absurd this (by decide)

lemma endTokB_unique (b b' : Bool) (s : List Char) (n n' : Nat)
    (h : ExplicitEndTokB b s n) (h' : ExplicitEndTokB b' s n') : n = n' := by
  obtain ⟨pre, rn, sep, ds, hs, hrn, hpre, hsep, hds, hn⟩ := h
  obtain ⟨pre', rn', sep', ds', hs', hrn', hpre', hsep', hds', hn'⟩ := h'
  obtain ⟨a, bb, c, rfl, ha, hb2, hc⟩ := runCI_shape rn hrn
  obtain ⟨a', bb', c', rfl, ha', hb2', hc'⟩ := runCI_shape rn' hrn'
  rcases Nat.lt_trichotomy pre.length pre'.length with hlt | heqlen | hgt
  · exact absurd (endTok_shift_false s pre pre' sep ds sep' ds' a bb c a' bb' c'
      hs hs' hb2 hc ha' (sepOpt_len sep hsep) (digitsOk_len ds hds)
      (sepOpt_len sep' hsep') (digitsOk_len ds' hds') hlt) (fun h => h)
  · have h1 : pre ++ ([a, bb, c] ++ (sep ++ ds)) =
        pre' ++ ([a', bb', c'] ++ (sep' ++ ds')) := by rw [← hs, ← hs']
    have h2 := (List.append_inj h1 heqlen).2
    have h3 : [a, bb, c] ++ (sep ++ (ds ++ ([] : List Char))) =
        [a', bb', c'] ++ (sep' ++ (ds' ++ ([] : List Char))) := by
      simpa [List.append_nil] using h2
    have hds_eq := tok_tail_unique [a, bb, c] sep ds [] [a', bb', c'] sep' ds' []
      h3 hrn hrn' hsep hsep' hds hds' trivial trivial
    rw [hn, hn', hds_eq]
  · exact absurd (endTok_shift_false s pre' pre sep' ds' sep ds a' bb' c' a bb c
      hs' hs hb2' hc' ha (sepOpt_len sep' hsep') (digitsOk_len ds' hds')
      (sepOpt_len sep hsep) (digitsOk_len ds hds) hgt) (fun h => h)

lemma guardedTokB_fun (b b' : Bool) (s : List Char) (p n n' : Nat)
    (h : GuardedTokB b s p n) (h' : GuardedTokB b' s p n') : n = n' := by
  obtain ⟨pre, rn, sep, ds, rest, hs, hrn, -, hsep, hds, hbd, hp, hn⟩ := h
  obtain ⟨pre', rn', sep', ds', rest', hs', hrn', -, hsep', hds', hbd', hp', hn'⟩ := h'
  have h1 : pre ++ (rn ++ (sep ++ (ds ++ rest))) =
      pre' ++ (rn' ++ (sep' ++ (ds' ++ rest'))) := by rw [← hs, ← hs']
  have h2 := List.append_inj h1 (by rw [hp, hp'])
  have hds_eq := tok_tail_unique rn sep ds rest rn' sep' ds' rest' h2.2 hrn hrn'
    hsep hsep' hds hds' hbd hbd'
  rw [hn, hn', hds_eq]

lemma runEndScan_sound (s : List Char) : ∀ (b : Bool) (n : Nat),
    runEndScan b s = some n → ExplicitEndTokB b s n := by
  induction s with
  | nil => intro b n h; simp [runEndScan] at h
  | cons c t ih =>
    intro b n h
    rw [runEndScan] at h
    cases hA : (if b then runEndHere (c :: t) else none) with
    | some m =>
      rw [hA] at h
      simp only [Option.some_orElse] at h
      have hb : b = true := by
        cases b
        · rw [if_neg (by simp)] at hA; exact absurd hA (by simp)
        · rfl
      subst hb
      rw [if_pos rfl] at hA
      obtain ⟨rn, sep, ds, hs, hrn, hsep, hds, hn⟩ := runEndHere_sound _ m hA
      refine ⟨[], rn, sep, ds, by simpa using hs, hrn, Or.inl ⟨rfl, rfl⟩, hsep, hds, ?_⟩
      rw [← Option.some.inj h]
      exact hn
    | none =>
      rw [hA] at h
      simp only [Option.none_orElse] at h
      cases hB : (if isSepC c then runEndHere t else none) with
      | some m =>
        rw [hB] at h
        simp only [Option.some_orElse] at h
        have hsc : isSepC c = true := by
          cases hcc : isSepC c
          · rw [if_neg (by simp [hcc])] at hB; exact absurd hB (by simp)
          · rfl
        rw [if_pos hsc] at hB
        obtain ⟨rn, sep, ds, hs, hrn, hsep, hds, hn⟩ := runEndHere_sound _ m hB
        refine ⟨[c], rn, sep, ds, by rw [hs]; rfl, hrn,
          Or.inr ⟨[], c, rfl, hsc⟩, hsep, hds, ?_⟩
        rw [← Option.some.inj h]
        exact hn
      | none =>
        rw [hB] at h
        simp only [Option.none_orElse] at h
        obtain ⟨pre, rn, sep, ds, hs, hrn, hpre, hsep, hds, hn⟩ := ih false n h
        refine ⟨c :: pre, rn, sep, ds, by rw [hs]; rfl, hrn, ?_, hsep, hds, hn⟩
        rcases hpre with ⟨-, habs⟩ | ⟨p, c₀, rfl, hc₀⟩
        · exact absurd habs (by simp)
        · exact Or.inr ⟨c :: p, c₀, by simp, hc₀⟩

lemma runEndScan_complete (s : List Char) : ∀ (b : Bool) (n : Nat),
    ExplicitEndTokB b s n → runEndScan b s = some n := by
  induction s with
  | nil =>
    intro b n h
    obtain ⟨pre, rn, sep, ds, hs, hrn, -, -, -, -⟩ := h
    obtain ⟨a, b2, c2, rfl, -, -, -⟩ := runCI_shape rn hrn
    rcases pre with _ | ⟨x, p⟩ <;> simp at hs
  | cons c t ih =>
    intro b n h
    obtain ⟨pre, rn, sep, ds, hs, hrn, hpre, hsep, hds, hn⟩ := h
    rw [runEndScan]
    rcases pre with _ | ⟨c₀, pre'⟩
    · have hb : b = true := by
        rcases hpre with ⟨-, hb⟩ | ⟨p, cc, habs, -⟩
        · exact hb
        · simp at habs
      subst hb
      rw [if_pos rfl]
      have hhere : runEndHere (c :: t) = some n := by
        rw [show c :: t = rn ++ (sep ++ ds) by simpa using hs, hn]
        exact runEndHere_complete rn sep ds hrn hsep hds
      rw [hhere]
      simp only [Option.some_orElse]
    · have hs2 : c :: t = c₀ :: (pre' ++ (rn ++ (sep ++ ds))) := hs
      injection hs2 with hce ht
      subst hce
      cases hA : (if b then runEndHere (c :: t) else none) with
      | some m =>
        have hb : b = true := by
          cases b
          · rw [if_neg (by simp)] at hA; exact absurd hA (by simp)
          · rfl
        subst hb
        rw [if_pos rfl] at hA
        obtain ⟨rn2, sep2, ds2, hs2, hrn2, hsep2, hds2, hn2⟩ := runEndHere_sound _ m hA
        have hm : ExplicitEndTokB true (c :: t) m :=
          ⟨[], rn2, sep2, ds2, by simpa using hs2, hrn2, Or.inl ⟨rfl, rfl⟩,
            hsep2, hds2, hn2⟩
        have horig : ExplicitEndTokB true (c :: t) n :=
          ⟨c :: pre', rn, sep, ds, hs, hrn, hpre, hsep, hds, hn⟩
        have hmn := endTokB_unique true true (c :: t) n m horig hm
        simp only [Option.some_orElse, hmn]
      | none =>
        simp only [Option.none_orElse]
        cases hB : (if isSepC c then runEndHere t else none) with
        | some m =>
          have hsc : isSepC c = true := by
            cases hcc : isSepC c
            · rw [if_neg (by simp [hcc])] at hB; exact absurd hB (by simp)
            · rfl
          rw [if_pos hsc] at hB
          obtain ⟨rn2, sep2, ds2, hs2, hrn2, hsep2, hds2, hn2⟩ := runEndHere_sound _ m hB
          have hm : ExplicitEndTokB b (c :: t) m :=
            ⟨[c], rn2, sep2, ds2, by rw [hs2]; rfl, hrn2, Or.inr ⟨[], c, rfl, hsc⟩,
              hsep2, hds2, hn2⟩
          have horig : ExplicitEndTokB b (c :: t) n :=
            ⟨c :: pre', rn, sep, ds, hs, hrn, hpre, hsep, hds, hn⟩
          have hmn := endTokB_unique b b (c :: t) n m horig hm
          simp only [Option.some_orElse, hmn]
        | none =>
          simp only [Option.none_orElse]
          rcases pre' with _ | ⟨x, pre''⟩
          · have hsc : isSepC c = true := by
              rcases hpre with ⟨habs, -⟩ | ⟨p, cc, heqp, hcc⟩
              · simp at habs
              · rcases p with _ | ⟨y, p'⟩
                · simp only [List.nil_append] at heqp
                  have : c = cc := by
                    have := List.cons.injEq c [] cc []
                    simp at heqp
                    exact heqp
                  rw [this]
                  exact hcc
                · simp at heqp
            have hhere : runEndHere t = some n := by
              rw [show t = rn ++ (sep ++ ds) by simpa using ht, hn]
              exact runEndHere_complete rn sep ds hrn hsep hds
            rw [if_pos hsc, hhere] at hB
            exact absurd hB (by simp)
          · have hpre'' : PreOk false (x :: pre'') := by
              rcases hpre with ⟨habs, -⟩ | ⟨p, cc, heqp, hcc⟩
              · simp at habs
              · rcases p with _ | ⟨y, p'⟩
                · simp at heqp
                · simp only [List.cons_append, List.cons.injEq] at heqp
                  exact Or.inr ⟨p', cc, heqp.2, hcc⟩
            exact ih false n ⟨x :: pre'', rn, sep, ds, ht, hrn, hpre'', hsep, hds, hn⟩

lemma guardedB_lift (b : Bool) (c : Char) (t : List Char) (p n : Nat)
    (h : GuardedTokB false t p n) : GuardedTokB b (c :: t) (p + 1) n := by
  obtain ⟨pre, rn, sep, ds, rest, hs, hrn, hpre, hsep, hds, hbd, hp, hn⟩ := h
  rcases hpre with ⟨-, habs⟩ | ⟨p0, c₀, rfl, hc₀⟩
  · exact absurd habs (by simp)
  · refine ⟨c :: (p0 ++ [c₀]), rn, sep, ds, rest, by rw [hs]; rfl, hrn,
      Or.inr ⟨c :: p0, c₀, by simp, hc₀⟩, hsep, hds, hbd, ?_, hn⟩
    simp only [List.length_cons]
    rw [hp]

lemma guardedB_unlift (b : Bool) (c : Char) (t : List Char) (p n : Nat)
    (h : GuardedTokB b (c :: t) p n) (h2 : 2 ≤ p) :
    GuardedTokB false t (p - 1) n := by
  obtain ⟨pre, rn, sep, ds, rest, hs, hrn, hpre, hsep, hds, hbd, hp, hn⟩ := h
  rcases pre with _ | ⟨c₁, pre'⟩
  · simp at hp; omega
  · have hs2 : c :: t = c₁ :: (pre' ++ (rn ++ (sep ++ (ds ++ rest)))) := hs
    injection hs2 with hce hte
    refine ⟨pre', rn, sep, ds, rest, hte, hrn, ?_, hsep, hds, hbd, ?_, hn⟩
    · rcases hpre with ⟨habs, -⟩ | ⟨p0, c₀, heqp, hc₀⟩
      · simp at habs
      · rcases p0 with _ | ⟨y, p0'⟩
        · simp only [List.nil_append] at heqp
          have hp' : pre' = [] := by
            have := congrArg List.length heqp
            simp at this
            exact this
          subst hp'
          simp at hp
          omega
        · simp only [List.cons_append, List.cons.injEq] at heqp
          exact Or.inr ⟨p0', c₀, heqp.2, hc₀⟩
    · simp only [List.length_cons] at hp
      omega

lemma guarded_pos (t : List Char) (p n : Nat) (h : GuardedTokB false t p n) :
    1 ≤ p := by
  obtain ⟨pre, rn, sep, ds, rest, hs, hrn, hpre, hsep, hds, hbd, hp, hn⟩ := h
  rcases hpre with ⟨-, habs⟩ | ⟨p0, c₀, rfl, -⟩
  · exact absurd habs (by simp)
  · rw [← hp]; simp

lemma guarded_one (b : Bool) (c : Char) (t : List Char) (n : Nat)
    (h : GuardedTokB b (c :: t) 1 n) : isSepC c = true ∧ runAnyHere t = some n := by
  obtain ⟨pre, rn, sep, ds, rest, hs, hrn, hpre, hsep, hds, hbd, hp, hn⟩ := h
  rcases pre with _ | ⟨c₁, pre'⟩
  · simp at hp
  · have hnil : pre' = [] := by
      simp only [List.length_cons] at hp
      exact List.length_eq_zero.1 (by omega)
    subst hnil
    have hs2 : c :: t = c₁ :: ([] ++ (rn ++ (sep ++ (ds ++ rest)))) := hs
    injection hs2 with hce hte
    subst hce
    constructor
    · rcases hpre with ⟨habs, -⟩ | ⟨p0, c₀, heqp, hc₀⟩
      · simp at habs
      · rcases p0 with _ | ⟨y, p0'⟩
        · simp only [List.nil_append] at heqp
          have hcc : c = c₀ := by
            have := heqp
            simp at this
            exact this
          rw [hcc]
          exact hc₀
        · simp at heqp
    · rw [show t = rn ++ (sep ++ (ds ++ rest)) by simpa using hte, hn]
      exact runAnyHere_complete rn sep ds rest hrn hsep hds hbd

lemma guarded_zero (b : Bool) (c : Char) (t : List Char) (n : Nat)
    (h : GuardedTokB b (c :: t) 0 n) : b = true ∧ runAnyHere (c :: t) = some n := by
  obtain ⟨pre, rn, sep, ds, rest, hs, hrn, hpre, hsep, hds, hbd, hp, hn⟩ := h
  have hnil : pre = [] := List.length_eq_zero.1 hp
  subst hnil
  constructor
  · rcases hpre with ⟨-, hb⟩ | ⟨p0, c₀, habs, -⟩
    · exact hb
    · simp at habs
  · rw [show c :: t = rn ++ (sep ++ (ds ++ rest)) by simpa using hs, hn]
    exact runAnyHere_complete rn sep ds rest hrn hsep hds hbd

lemma guarded_mid_intro (b : Bool) (c : Char) (t : List Char) (m : Nat)
    (hsc : isSepC c = true) (h : runAnyHere t = some m) :
    GuardedTokB b (c :: t) 1 m := by
  obtain ⟨rn, sep, ds, rest, hs, hrn, hsep, hds, hbd, hn⟩ := runAnyHere_sound t m h
  exact ⟨[c], rn, sep, ds, rest, by rw [hs]; rfl, hrn, Or.inr ⟨[], c, rfl, hsc⟩,
    hsep, hds, hbd, rfl, hn⟩

lemma guarded_zero_intro (c : Char) (t : List Char) (n : Nat)
    (h : runAnyHere (c :: t) = some n) : GuardedTokB true (c :: t) 0 n := by
  obtain ⟨rn, sep, ds, rest, hs, hrn, hsep, hds, hbd, hn⟩ := runAnyHere_sound _ n h
  exact ⟨[], rn, sep, ds, rest, by simpa using hs, hrn, Or.inl ⟨rfl, rfl⟩,
    hsep, hds, hbd, rfl, hn⟩

lemma runAnyLast_spec (s : List Char) : ∀ b : Bool,
    (∀ n, runAnyLast b s = some n →
      ∃ p, GuardedTokB b s p n ∧ ∀ p' n', GuardedTokB b s p' n' → p' ≤ p) ∧
    (∀ p n, GuardedTokB b s p n → ∃ m, runAnyLast b s = some m) := by
  induction s with
  | nil =>
    intro b
    constructor
    · intro n h; simp [runAnyLast] at h
    · intro p n h
      obtain ⟨pre, rn, sep, ds, rest, hs, hrn, -, -, -, -, -, -⟩ := h
      obtain ⟨a, b2, c2, rfl, -, -, -⟩ := runCI_shape rn hrn
      rcases pre with _ | ⟨x, pp⟩ <;> simp at hs
  | cons c t ih =>
    intro b
    constructor
    · intro n h
      rw [runAnyLast] at h
      cases hA : runAnyLast false t with
      | some m =>
        rw [hA] at h
        simp only [Option.some_orElse] at h
        obtain rfl : m = n := Option.some.inj h
        obtain ⟨p, hp, hmax⟩ := (ih false).1 m hA
        refine ⟨p + 1, guardedB_lift b c t p m hp, ?_⟩
        intro p' n' hp'
        rcases Nat.lt_or_ge p' 2 with h2 | h2
        · have := guarded_pos t p m hp
          omega
        · have := hmax (p' - 1) n' (guardedB_unlift b c t p' n' hp' h2)
          omega
      | none =>
        rw [hA] at h
        simp only [Option.none_orElse] at h
        cases hB : (if isSepC c then runAnyHere t else none) with
        | some m =>
          rw [hB] at h
          simp only [Option.some_orElse] at h
          obtain rfl : m = n := Option.some.inj h
          have hsc : isSepC c = true := by
            cases hcc : isSepC c
            · rw [if_neg (by simp [hcc])] at hB; exact absurd hB (by simp)
            · rfl
          rw [if_pos hsc] at hB
          refine ⟨1, guarded_mid_intro b c t m hsc hB, ?_⟩
          intro p' n' hp'
          rcases Nat.lt_or_ge p' 2 with h2 | h2
          · omega
          · obtain ⟨mm, hmm⟩ := (ih false).2 (p' - 1) n'
              (guardedB_unlift b c t p' n' hp' h2)
            rw [hA] at hmm
            exact absurd hmm (by simp)
        | none =>
          rw [hB] at h
          simp only [Option.none_orElse] at h
          have hb : b = true := by
            cases b
            · rw [if_neg (by simp)] at h; exact absurd h (by simp)
            · rfl
          subst hb
          rw [if_pos rfl] at h
          refine ⟨0, guarded_zero_intro c t n h, ?_⟩
          intro p' n' hp'
          rcases Nat.eq_zero_or_pos p' with rfl | hpos
          · omega
          rcases Nat.lt_or_ge p' 2 with h2 | h2
          · have h1 : p' = 1 := by omega
            subst h1
            obtain ⟨hsc, hhere⟩ := guarded_one true c t n' hp'
            rw [if_pos hsc, hhere] at hB
            exact absurd hB (by simp)
          · obtain ⟨mm, hmm⟩ := (ih false).2 (p' - 1) n'
              (guardedB_unlift true c t p' n' hp' h2)
            rw [hA] at hmm
            exact absurd hmm (by simp)
    · intro p n hg
      rw [runAnyLast]
      cases hA : runAnyLast false t with
      | some m => exact ⟨m, by simp only [Option.some_orElse]⟩
      | none =>
        simp only [Option.none_orElse]
        rcases Nat.lt_or_ge p 2 with h2 | h2
        · rcases Nat.eq_zero_or_pos p with rfl | hpos
          · obtain ⟨hb, hhere⟩ := guarded_zero b c t n hg
            subst hb
            cases hB : (if isSepC c then runAnyHere t else none) with
            | some m => exact ⟨m, by simp only [Option.some_orElse]⟩
            | none =>
              refine ⟨n, ?_⟩
              simp only [Option.none_orElse, if_pos rfl]
              exact hhere
          · have h1 : p = 1 := by omega
            subst h1
            obtain ⟨hsc, hhere⟩ := guarded_one b c t n hg
            refine ⟨n, ?_⟩
            rw [if_pos hsc, hhere]
            simp only [Option.some_orElse]
        · obtain ⟨mm, hmm⟩ := (ih false).2 (p - 1) n (guardedB_unlift b c t p n hg h2)
          rw [hA] at hmm
          exact absurd hmm (by simp)

/-- C4: the claim predicts that the sequence extractor returns
ep2d_bold_2000 on the normalized scenario stem and that the synthesized
output stem starts with 01_01_ep2d_bold_2000_.  Both are false: the
ep2d pattern requires a non-alphanumeric character before ep2d, which
mbep2d does not provide, so the extractor returns unknownseq and the
output stem is 01_01_unknownseq_prep_run-01. -/
theorem c4_counterexample :
    parse_sequence (normalize_stem
      "0010_cmrr_mbep2d_bold_64ch_MB2_GRAPPA2_2mm_PRG_TR2000") = "unknownseq" ∧
    "unknownseq" ≠ "ep2d_bold_2000" ∧
    (copySection "01" "01" Sect.func Filenaming.custom (fun _ _ => true)
        ["0010_cmrr_mbep2d_bold_64ch_MB2_GRAPPA2_2mm_PRG_TR2000"] zeroCounters).2.map
        StemRec.naming =
      [NamingOut.custom "unknownseq" (some "prep") "run-01" true
        "01_01_unknownseq_prep_run-01"] ∧
    startsWithStr "01_01_unknownseq_prep_run-01" "01_01_ep2d_bold_2000_" = false := by
  refine ⟨by decide, by decide, by decide, by decide⟩

/-- C4 (amended): for the scenario stem under custom naming, section func,
subject 01, session 01, fresh counters, normalization drops the leading
0010_, the sequence extractor returns unknownseq (the ep2d pattern needs a
non-alphanumeric boundary before ep2d, which mbep2d lacks), the modality
is the fallback prep, no run token is found so the counter yields run-01,
and the synthesized output stem is 01_01_unknownseq_prep_run-01. -/
theorem c4_scenario :
    normalize_stem "0010_cmrr_mbep2d_bold_64ch_MB2_GRAPPA2_2mm_PRG_TR2000" =
      "cmrr_mbep2d_bold_64ch_mb2_grappa2_2mm_prg_tr2000" ∧
    parse_sequence "cmrr_mbep2d_bold_64ch_mb2_grappa2_2mm_prg_tr2000" = "unknownseq" ∧
    parse_modality "cmrr_mbep2d_bold_64ch_mb2_grappa2_2mm_prg_tr2000" = "prep" ∧
    parse_run "cmrr_mbep2d_bold_64ch_mb2_grappa2_2mm_prg_tr2000" = none ∧
    (copySection "01" "01" Sect.func Filenaming.custom (fun _ _ => true)
        ["0010_cmrr_mbep2d_bold_64ch_MB2_GRAPPA2_2mm_PRG_TR2000"] zeroCounters).2 =
      [⟨"0010_cmrr_mbep2d_bold_64ch_MB2_GRAPPA2_2mm_PRG_TR2000",
        NamingOut.custom "unknownseq" (some "prep") "run-01" true
          "01_01_unknownseq_prep_run-01",
        ["01_01_unknownseq_prep_run-01.nii.gz", "01_01_unknownseq_prep_run-01.json"]⟩] := by
  refine ⟨by decide, by decide, by decide, by decide, by decide⟩

/-- C5 counterexample: the stem task_run-02_rest contains a run token as the
claim words it (run, separator, two digits, mid-stem) and no end-anchored
token, yet parse_run returns none: the RUN_ANY regex demands a word boundary
after the digits, and the following underscore is a word character. -/
theorem c5_counterexample :
    NaiveRunTok "task_run-02_rest".data ∧
    (∀ n, ¬ ExplicitEndTok "task_run-02_rest".data n) ∧
    parse_run "task_run-02_rest" = none := by
  refine ⟨⟨"task_".data, "run".data, "-".data, "02".data, "_rest".data,
      by decide, by unfold RunCI; decide,
      Or.inr ⟨"task".data, '_', by decide, by decide⟩,
      Or.inr ⟨'-', by decide, by decide⟩,
      by unfold DigitsOk; decide⟩, ?_, by decide⟩
  intro n hn
  have hc := runEndScan_complete "task_run-02_rest".data true n hn
  rw [show runEndScan true "task_run-02_rest".data = none from by decide] at hc
  exact Option.noConfusion hc

/-- C5: behaviour of the run extractor parse_run on every normalized stem:
an end-anchored run token (run, optional separator, one or two digits at the
very end, preceded by start or a separator) yields that number zero-padded,
with no counter involved; failing that, the rightmost word-boundary-guarded
run token anywhere in the stem yields its number; and when no guarded token
occurs anywhere the extractor returns none so the caller falls back to the
counter.  (Corrected from the claim: a mid-stem token counts only when a
word boundary follows its digits.) -/
theorem c5_run_extractor (s : String) :
    (∀ n, ExplicitEndTok s.data n → parse_run s = some (runLabel n)) ∧
    ((∀ n, ¬ ExplicitEndTok s.data n) → ∀ n, RightmostGuarded s.data n →
      parse_run s = some (runLabel n)) ∧
    ((∀ n, ¬ GuardedTok s.data n) → parse_run s = none) := by
  refine ⟨?_, ?_, ?_⟩
  · intro n hn
    unfold parse_run
    rw [runEndScan_complete s.data true n hn]
  · intro hno n hn
    have hz : runEndScan true s.data = none := by
      cases hq : runEndScan true s.data with
      | none => rfl
      | some m => exact absurd (runEndScan_sound s.data true m hq) (hno m)
    obtain ⟨p, hp, hmax⟩ := hn
    obtain ⟨m, hm⟩ := (runAnyLast_spec s.data true).2 p n hp
    obtain ⟨q, hq, hqmax⟩ := (runAnyLast_spec s.data true).1 m hm
    have hpq : p = q := le_antisymm (hqmax p n hp) (hmax q m hq)
    subst hpq
    have hmn : m = n := guardedTokB_fun true true s.data p m n hq hp
    subst hmn
    unfold parse_run
    rw [hz, hm]
  · intro hno
    have hz : runEndScan true s.data = none := by
      cases hq : runEndScan true s.data with
      | none => rfl
      | some m =>
        obtain ⟨pre, rn, sep, ds, hs, hrn, hpre, hsep, hds, hmm⟩ :=
          runEndScan_sound s.data true m hq
        exact absurd ⟨pre.length, pre, rn, sep, ds, ([] : List Char),
          by rw [hs]; simp, hrn, hpre, hsep, hds, trivial, rfl, hmm⟩ (hno m)
    have hz2 : runAnyLast true s.data = none := by
      cases hq : runAnyLast true s.data with
      | none => rfl
      | some m =>
        obtain ⟨p, hp, -⟩ := (runAnyLast_spec s.data true).1 m hq
        exact absurd ⟨p, hp⟩ (hno m)
    unfold parse_run
    rw [hz, hz2]

/-- Witness for the C5 theorem: an end-anchored token on x_run-07; the
rightmost guarded token on run-1-run-2-; and the none result on a stem with
no run token at all. -/
theorem c5_run_extractor_witness :
    parse_run "x_run-07" = some "run-07" ∧
    parse_run "run-1-run-2-" = some "run-02" ∧
    parse_run "nothing_here" = none := by
  refine ⟨?_, ?_, ?_⟩
  · have h := (c5_run_extractor "x_run-07").1 7
      ⟨"x_".data, "run".data, "-".data, "07".data, by decide,
        by unfold RunCI; decide,
        Or.inr ⟨['x'], '_', by decide, by decide⟩,
        Or.inr ⟨'-', by decide, by decide⟩,
        by unfold DigitsOk; decide, by decide⟩
    rw [show runLabel 7 = "run-07" from by decide] at h
    exact h
  · have h1 : ∀ n, ¬ ExplicitEndTok ("run-1-run-2-").data n := by
      intro n hn
      have hc := runEndScan_complete ("run-1-run-2-").data true n hn
      rw [show runEndScan true ("run-1-run-2-").data = none from by decide] at hc
      exact Option.noConfusion hc
    have h2 : RightmostGuarded ("run-1-run-2-").data 2 :=
      (runAnyLast_spec ("run-1-run-2-").data true).1 2 (by decide)
    have h := (c5_run_extractor "run-1-run-2-").2.1 h1 2 h2
    rw [show runLabel 2 = "run-02" from by decide] at h
    exact h
  · have h1 : ∀ n, ¬ GuardedTok ("nothing_here").data n := by
      intro n hn
      obtain ⟨p, hp⟩ := hn
      obtain ⟨m, hm⟩ := (runAnyLast_spec ("nothing_here").data true).2 p n hp
      rw [show runAnyLast true ("nothing_here").data = none from by decide] at hm
      exact Option.noConfusion hm
    exact (c5_run_extractor "nothing_here").2.2 h1

end MPIpe
